import Mathlib

/-!
# Verification of `path-utils/src/cubic_to_quadratic.rs`

A shallow embedding of the cubic-to-quadratic path converter.  The source
works on `f32`; the embedding uses exact rational arithmetic (`ℚ`).  The one
operation that has no exact rational counterpart, the Euclidean length used
in `max_error = max(|d1|, |d0|) / 6 < error_bound`, is embedded in the
equivalent squared form `0 < error_bound ∧ max (|d1|²) (|d0|²) < 36·error_bound²`
(for real numbers `sqrt m / 6 < e` holds iff `0 < e ∧ m < 36·e²`, because
`sqrt m ≥ 0`).

External collaborators (the `euclid`/`lyon_geom` geometry library) are not
part of this repository; following the spec's §6 boundary they are embedded
as: de Casteljau split-at-parameter, componentwise point/vector arithmetic,
and an abstract arc-decomposition function (a parameter of the development).
-/

namespace CubicToQuadratic

/-- 2D point over exact rationals.  The source distinguishes `Point2D` and
`Vector2D` (`euclid`); both carry the same two coordinates and the same
componentwise arithmetic, so a single type stands in for both (`to_point`
is the identity here). -/
structure Point2D where
  x : ℚ
  y : ℚ
deriving DecidableEq, Repr

instance : Add Point2D := ⟨fun p q => ⟨p.x + q.x, p.y + q.y⟩⟩
instance : Sub Point2D := ⟨fun p q => ⟨p.x - q.x, p.y - q.y⟩⟩
instance : Neg Point2D := ⟨fun p => ⟨-p.x, -p.y⟩⟩
instance : HMul Point2D ℚ Point2D := ⟨fun p s => ⟨p.x * s, p.y * s⟩⟩

@[simp] theorem add_x (p q : Point2D) : (p + q).x = p.x + q.x := rfl
@[simp] theorem add_y (p q : Point2D) : (p + q).y = p.y + q.y := rfl
@[simp] theorem sub_x (p q : Point2D) : (p - q).x = p.x - q.x := rfl
@[simp] theorem sub_y (p q : Point2D) : (p - q).y = p.y - q.y := rfl
@[simp] theorem neg_x (p : Point2D) : (-p).x = -p.x := rfl
@[simp] theorem neg_y (p : Point2D) : (-p).y = -p.y := rfl
@[simp] theorem smul_x (p : Point2D) (s : ℚ) : (p * s).x = p.x * s := rfl
@[simp] theorem smul_y (p : Point2D) (s : ℚ) : (p * s).y = p.y * s := rfl

theorem Point2D.ext' {p q : Point2D} (hx : p.x = q.x) (hy : p.y = q.y) :
    p = q := by
  cases p; cases q; cases hx; cases hy; rfl

/-- Modelled from the spec: collaborator point arithmetic.
`euclid`'s `lerp`: `self + (other - self) * t`. -/
def Point2D.lerp (p q : Point2D) (t : ℚ) : Point2D := p + (q - p) * t

/-- Squared Euclidean length.  Stands in for `euclid`'s `length()`; all uses
compare lengths against nonnegative bounds, which is done in squared form. -/
def Point2D.lengthSq (p : Point2D) : ℚ := p.x * p.x + p.y * p.y

theorem lengthSq_nonneg (p : Point2D) : 0 ≤ p.lengthSq := by
  exact add_nonneg (mul_self_nonneg _) (mul_self_nonneg _)

theorem lengthSq_neg (p : Point2D) : (-p).lengthSq = p.lengthSq := by
  simp [Point2D.lengthSq]

/-- `lyon_geom`'s `CubicBezierSegment` over rationals. -/
structure CubicBezierSegment where
  «from» : Point2D
  ctrl1 : Point2D
  ctrl2 : Point2D
  «to» : Point2D
deriving DecidableEq, Repr

/-- `lyon_geom`'s `QuadraticBezierSegment` over rationals. -/
structure QuadraticBezierSegment where
  «from» : Point2D
  ctrl : Point2D
  «to» : Point2D
deriving DecidableEq, Repr

/-- Modelled from the spec: the collaborator's split-at-parameter primitive
for cubic segments (`CubicBezierSegment::split`), the standard de Casteljau
subdivision.  The source only ever calls it at `t = 1/2`. -/
def CubicBezierSegment.split (c : CubicBezierSegment) (t : ℚ) :
    CubicBezierSegment × CubicBezierSegment :=
  let ctrl1a := c.«from».lerp c.ctrl1 t
  let ctrl2a := c.ctrl1.lerp c.ctrl2 t
  let ctrl1aa := ctrl1a.lerp ctrl2a t
  let ctrl3a := c.ctrl2.lerp c.«to» t
  let ctrl2aa := ctrl2a.lerp ctrl3a t
  let ctrl1aaa := ctrl1aa.lerp ctrl2aa t
  (⟨c.«from», ctrl1a, ctrl1aa, ctrl1aaa⟩, ⟨ctrl1aaa, ctrl2aa, ctrl3a, c.«to»⟩)

@[simp] theorem split_fst_from (c : CubicBezierSegment) (t : ℚ) :
    (c.split t).1.«from» = c.«from» := rfl

@[simp] theorem split_snd_to (c : CubicBezierSegment) (t : ℚ) :
    (c.split t).2.«to» = c.«to» := rfl

@[simp] theorem split_fst_to_eq_snd_from (c : CubicBezierSegment) (t : ℚ) :
    (c.split t).1.«to» = (c.split t).2.«from» := rfl

/-- `const MAX_APPROXIMATION_ITERATIONS: u8 = 32` (line 17). -/
def MAX_APPROXIMATION_ITERATIONS : Nat := 32

/-- State of `CubicToQuadraticSegmentIter` (lines 20-24).  The Rust `Vec`
used as a LIFO stack (push/pop at the end) is modelled as a list whose head
is the top of the stack. -/
structure CubicToQuadraticSegmentIter where
  cubic_curves : List CubicBezierSegment
  error_bound : ℚ
  iteration : Nat
deriving DecidableEq, Repr

/-- `CubicToQuadraticSegmentIter::new` (lines 27-34): split the cubic at 0.5
and push both halves; `vec![curve_b, curve_a]` pops `curve_a` first, so in the
head-is-top model the stack is `[curve_a, curve_b]`. -/
def CubicToQuadraticSegmentIter.new (cubic : CubicBezierSegment)
    (error_bound : ℚ) : CubicToQuadraticSegmentIter :=
  let s := cubic.split (1/2)
  { cubic_curves := [s.1, s.2], error_bound := error_bound, iteration := 0 }

/-- `delta_ctrl_0` (line 50): `(cubic.from - cubic.ctrl1 * 3.0) + (cubic.ctrl2 * 3.0 - cubic.to)`. -/
def delta_ctrl_0 (c : CubicBezierSegment) : Point2D :=
  (c.«from» - c.ctrl1 * (3 : ℚ)) + (c.ctrl2 * (3 : ℚ) - c.«to»)

/-- `delta_ctrl_1` (line 51): `(cubic.ctrl1 * 3.0 - cubic.from) + (cubic.to - cubic.ctrl2 * 3.0)`. -/
def delta_ctrl_1 (c : CubicBezierSegment) : Point2D :=
  (c.ctrl1 * (3 : ℚ) - c.«from») + (c.«to» - c.ctrl2 * (3 : ℚ))

/-- `f32::max` on exact values: the larger of the two arguments. -/
def fmax (a b : ℚ) : ℚ := if a ≤ b then b else a

@[simp] theorem fmax_self (a : ℚ) : fmax a a = a := by simp [fmax]

/-- The error test of lines 50-53:
`max(delta_ctrl_1.length(), delta_ctrl_0.length()) / 6.0 < error_bound`,
in the equivalent squared form (see the module comment). -/
def maxErrorLt (c : CubicBezierSegment) (error_bound : ℚ) : Bool :=
  decide (0 < error_bound) &&
    decide (fmax ((delta_ctrl_1 c).lengthSq) ((delta_ctrl_0 c).lengthSq) <
      36 * error_bound ^ 2)

/-- The `while` loop of lines 46-60, as a recursion on the remaining
iteration budget `rem`.  Invoked with `rem = MAX_APPROXIMATION_ITERATIONS -
iteration` (see `subdivide`), so `rem = 0` is exactly the loop condition
`iteration < MAX_APPROXIMATION_ITERATIONS` failing.  One step: increment the
counter, test the error bound and break, or split at 0.5, push the second
half and continue with the first. -/
def subdivideGo : Nat → CubicBezierSegment → List CubicBezierSegment →
    Nat → ℚ → CubicBezierSegment × List CubicBezierSegment × Nat
  | 0, cubic, stack, iteration, _ => (cubic, stack, iteration)
  | rem + 1, cubic, stack, iteration, error_bound =>
      if maxErrorLt cubic error_bound then (cubic, stack, iteration + 1)
      else
        let s := cubic.split (1/2)
        subdivideGo rem s.1 (s.2 :: stack) (iteration + 1) error_bound

/-- The loop of lines 46-60 with the budget spelled out. -/
def subdivide (cubic : CubicBezierSegment) (stack : List CubicBezierSegment)
    (iteration : Nat) (error_bound : ℚ) :
    CubicBezierSegment × List CubicBezierSegment × Nat :=
  subdivideGo (MAX_APPROXIMATION_ITERATIONS - iteration) cubic stack iteration
    error_bound

/-- Lines 62-68: the approximating quadratic of a (possibly unconverged)
cubic sub-segment: `approx_ctrl_0 = (ctrl1*3 - from) * 0.5`,
`approx_ctrl_1 = (ctrl2*3 - to) * 0.5`, control point their midpoint. -/
def approxQuad (cubic : CubicBezierSegment) : QuadraticBezierSegment :=
  let approx_ctrl_0 := (cubic.ctrl1 * (3 : ℚ) - cubic.«from») * ((1 : ℚ)/2)
  let approx_ctrl_1 := (cubic.ctrl2 * (3 : ℚ) - cubic.«to») * ((1 : ℚ)/2)
  { «from» := cubic.«from»,
    ctrl := approx_ctrl_0.lerp approx_ctrl_1 (1/2),
    «to» := cubic.«to» }

/-- `CubicToQuadraticSegmentIter::next` (lines 40-70): pop a pending
sub-segment (`None` when exhausted), run the subdivision loop, emit the
quadratic approximation of the sub-segment the loop settled on. -/
def CubicToQuadraticSegmentIter.next (it : CubicToQuadraticSegmentIter) :
    Option QuadraticBezierSegment × CubicToQuadraticSegmentIter :=
  match it.cubic_curves with
  | [] => (none, it)
  | cubic :: rest =>
      let r := subdivide cubic rest it.iteration it.error_bound
      (some (approxQuad r.1),
        { it with cubic_curves := r.2.1, iteration := r.2.2 })

/-- Termination measure of the iterator: pending segments plus remaining
iteration budget.  Strictly decreases at every emission. -/
def iterFuel (it : CubicToQuadraticSegmentIter) : Nat :=
  it.cubic_curves.length + (MAX_APPROXIMATION_ITERATIONS - it.iteration)

/-- Pull the iterator to exhaustion, collecting the emitted quadratics;
structural recursion on an explicit fuel that dominates `iterFuel`. -/
def drainFuel : Nat → CubicToQuadraticSegmentIter →
    List QuadraticBezierSegment
  | 0, _ => []
  | fuel + 1, it =>
      match it.next with
      | (none, _) => []
      | (some q, it') => q :: drainFuel fuel it'

/-- The full emitted sequence of a `CubicToQuadraticSegmentIter`. -/
def CubicToQuadraticSegmentIter.drain (it : CubicToQuadraticSegmentIter) :
    List QuadraticBezierSegment :=
  drainFuel (iterFuel it) it

/-- The full sequence of quadratics the iterator yields for one cubic. -/
def cubicDrain (cubic : CubicBezierSegment) (error_bound : ℚ) :
    List QuadraticBezierSegment :=
  (CubicToQuadraticSegmentIter.new cubic error_bound).drain

/-! ## Termination measure and length bounds for the cubic iterator -/

theorem subdivideGo_facts (rem : Nat) (c : CubicBezierSegment)
    (st : List CubicBezierSegment) (i : Nat) (e : ℚ) :
    i ≤ (subdivideGo rem c st i e).2.2 ∧
    (subdivideGo rem c st i e).2.2 ≤ i + rem ∧
    (subdivideGo rem c st i e).2.1.length + i ≤
      st.length + (subdivideGo rem c st i e).2.2 ∧
    st.length ≤ (subdivideGo rem c st i e).2.1.length := by
  induction rem generalizing c st i with
  | zero => simp [subdivideGo]
  | succ rem ih =>
      by_cases h : maxErrorLt c e
      · simp only [subdivideGo, h, if_true]; omega
      · have := ih (c.split (1/2)).1 ((c.split (1/2)).2 :: st) (i + 1)
        simp only [subdivideGo, h, Bool.false_eq_true, if_false,
          List.length_cons] at this ⊢
        omega

theorem next_none_of_nil (it : CubicToQuadraticSegmentIter)
    (h : it.cubic_curves = []) : it.next = (none, it) := by
  simp [CubicToQuadraticSegmentIter.next, h]

theorem next_fuel_lt {it it' : CubicToQuadraticSegmentIter}
    {q : QuadraticBezierSegment} (h : it.next = (some q, it')) :
    iterFuel it' < iterFuel it := by
  match hc : it.cubic_curves with
  | [] => simp [CubicToQuadraticSegmentIter.next, hc] at h
  | cubic :: rest =>
      simp only [CubicToQuadraticSegmentIter.next, hc] at h
      have hfacts := subdivideGo_facts
        (MAX_APPROXIMATION_ITERATIONS - it.iteration) cubic rest
        it.iteration it.error_bound
      have h2 := congrArg Prod.snd h
      simp only at h2
      subst h2
      simp only [iterFuel, hc, List.length_cons, subdivide]
      omega

theorem drainFuel_congr {it : CubicToQuadraticSegmentIter} :
    ∀ {f1 f2 : Nat}, iterFuel it ≤ f1 → iterFuel it ≤ f2 →
      drainFuel f1 it = drainFuel f2 it := by
  suffices H : ∀ f1 f2 (it : CubicToQuadraticSegmentIter),
      iterFuel it ≤ f1 → iterFuel it ≤ f2 →
      drainFuel f1 it = drainFuel f2 it by
    intro f1 f2 h1 h2; exact H f1 f2 it h1 h2
  intro f1
  induction f1 with
  | zero =>
      intro f2 it h1 _
      have hnil : it.cubic_curves = [] := by
        simp only [iterFuel] at h1
        cases hc : it.cubic_curves with
        | nil => rfl
        | cons a l => rw [hc] at h1; simp at h1
      cases f2 with
      | zero => rfl
      | succ f2 => simp [drainFuel, next_none_of_nil it hnil]
  | succ f1 ih =>
      intro f2 it h1 h2
      cases f2 with
      | zero =>
          have hnil : it.cubic_curves = [] := by
            simp only [iterFuel] at h2
            cases hc : it.cubic_curves with
            | nil => rfl
            | cons a l => rw [hc] at h2; simp at h2
          simp [drainFuel, next_none_of_nil it hnil]
      | succ f2 =>
          simp only [drainFuel]
          match hn : it.next with
          | (none, it2) => rfl
          | (some q, it') =>
              have hlt := next_fuel_lt hn
              have heq := ih f2 it' (by omega) (by omega)
              exact congrArg (fun l => q :: l) heq

theorem drain_eq_nil (it : CubicToQuadraticSegmentIter)
    (h : it.cubic_curves = []) : it.drain = [] := by
  unfold CubicToQuadraticSegmentIter.drain
  cases hf : iterFuel it with
  | zero => rfl
  | succ f => simp [drainFuel, next_none_of_nil it h]

theorem drain_eq_cons {it it' : CubicToQuadraticSegmentIter}
    {q : QuadraticBezierSegment} (h : it.next = (some q, it')) :
    it.drain = q :: it'.drain := by
  have hlt := next_fuel_lt h
  unfold CubicToQuadraticSegmentIter.drain
  cases hf : iterFuel it with
  | zero => omega
  | succ f =>
      simp only [drainFuel, h]
      have : drainFuel f it' = drainFuel (iterFuel it') it' :=
        drainFuel_congr (by omega) (le_refl _)
      rw [this]

theorem drainFuel_length_bounds :
    ∀ (fuel : Nat) (it : CubicToQuadraticSegmentIter),
      iterFuel it ≤ fuel →
      it.cubic_curves.length ≤ (drainFuel fuel it).length ∧
        (drainFuel fuel it).length ≤ iterFuel it := by
  intro fuel
  induction fuel with
  | zero =>
      intro it h
      simp only [iterFuel] at h
      constructor
      · simp only [drainFuel]; omega
      · simp [drainFuel]
  | succ fuel ih =>
      intro it h
      match hc : it.cubic_curves with
      | [] =>
          rw [drainFuel, next_none_of_nil it hc]
          simp [hc]
      | cubic :: rest =>
          have hnext : it.next =
              (some (approxQuad (subdivide cubic rest it.iteration
                it.error_bound).1),
               { it with
                  cubic_curves :=
                    (subdivide cubic rest it.iteration it.error_bound).2.1,
                  iteration :=
                    (subdivide cubic rest it.iteration it.error_bound).2.2 }) := by
            simp [CubicToQuadraticSegmentIter.next, hc]
          have hlt := next_fuel_lt hnext
          have hih := ih { it with
              cubic_curves :=
                (subdivide cubic rest it.iteration it.error_bound).2.1,
              iteration :=
                (subdivide cubic rest it.iteration it.error_bound).2.2 }
            (by omega)
          rw [drainFuel, hnext]
          simp only [List.length_cons]
          have hfacts := subdivideGo_facts
            (MAX_APPROXIMATION_ITERATIONS - it.iteration) cubic rest
            it.iteration it.error_bound
          simp only [iterFuel, hc, List.length_cons, subdivide] at *
          omega

theorem iterFuel_new (c : CubicBezierSegment) (e : ℚ) :
    iterFuel (CubicToQuadraticSegmentIter.new c e) =
      MAX_APPROXIMATION_ITERATIONS + 2 := rfl

theorem cubicDrain_length_bounds (c : CubicBezierSegment) (e : ℚ) :
    2 ≤ (cubicDrain c e).length ∧
      (cubicDrain c e).length ≤ MAX_APPROXIMATION_ITERATIONS + 2 := by
  have h := drainFuel_length_bounds (iterFuel (CubicToQuadraticSegmentIter.new c e))
    (CubicToQuadraticSegmentIter.new c e) (le_refl _)
  simpa [cubicDrain, CubicToQuadraticSegmentIter.drain, iterFuel_new,
    CubicToQuadraticSegmentIter.new] using h

/-! ## Endpoint continuity of the emitted chain -/

/-- `IsChain p l q`: the quadratic segments of `l` connect `p` to `q`:
each segment starts where its predecessor ended, the first starts at `p`,
the last ends at `q`. -/
def IsChain : Point2D → List QuadraticBezierSegment → Point2D → Prop
  | p, [], q => p = q
  | p, s :: rest, q => s.«from» = p ∧ IsChain s.«to» rest q

/-- `CChain p l q`: the pending cubic sub-segments of `l` connect `p` to `q`. -/
def CChain : Point2D → List CubicBezierSegment → Point2D → Prop
  | p, [], q => p = q
  | p, s :: rest, q => s.«from» = p ∧ CChain s.«to» rest q

@[simp] theorem approxQuad_from (c : CubicBezierSegment) :
    (approxQuad c).«from» = c.«from» := rfl

@[simp] theorem approxQuad_to (c : CubicBezierSegment) :
    (approxQuad c).«to» = c.«to» := rfl

theorem subdivideGo_chain (rem : Nat) (c : CubicBezierSegment)
    (st : List CubicBezierSegment) (i : Nat) (e : ℚ) (q : Point2D)
    (h : CChain c.«to» st q) :
    (subdivideGo rem c st i e).1.«from» = c.«from» ∧
      CChain (subdivideGo rem c st i e).1.«to»
        (subdivideGo rem c st i e).2.1 q := by
  induction rem generalizing c st i with
  | zero => exact ⟨rfl, h⟩
  | succ rem ih =>
      by_cases he : maxErrorLt c e
      · simp only [subdivideGo, he, if_true]
        exact ⟨trivial, h⟩
      · simp only [subdivideGo, he, Bool.false_eq_true, if_false]
        have hchain : CChain (c.split (1/2)).1.«to»
            ((c.split (1/2)).2 :: st) q := by
          refine ⟨(split_fst_to_eq_snd_from c (1/2)).symm, ?_⟩
          rw [split_snd_to]
          exact h
        have := ih (c.split (1/2)).1 ((c.split (1/2)).2 :: st) (i + 1) hchain
        rw [split_fst_from] at this
        exact this

theorem drainFuel_chain :
    ∀ (fuel : Nat) (it : CubicToQuadraticSegmentIter) (p q : Point2D),
      iterFuel it ≤ fuel → CChain p it.cubic_curves q →
      IsChain p (drainFuel fuel it) q := by
  intro fuel
  induction fuel with
  | zero =>
      intro it p q hf hc
      simp only [iterFuel] at hf
      have : it.cubic_curves = [] := by
        cases h : it.cubic_curves with
        | nil => rfl
        | cons a l => rw [h] at hf; simp at hf
      rw [this] at hc
      exact hc
  | succ fuel ih =>
      intro it p q hf hc
      match hl : it.cubic_curves with
      | [] =>
          rw [drainFuel, next_none_of_nil it hl]
          rw [hl] at hc
          exact hc
      | cubic :: rest =>
          have hnext : it.next =
              (some (approxQuad (subdivide cubic rest it.iteration
                it.error_bound).1),
               { it with
                  cubic_curves :=
                    (subdivide cubic rest it.iteration it.error_bound).2.1,
                  iteration :=
                    (subdivide cubic rest it.iteration it.error_bound).2.2 }) := by
            simp [CubicToQuadraticSegmentIter.next, hl]
          have hlt := next_fuel_lt hnext
          rw [drainFuel, hnext]
          rw [hl] at hc
          obtain ⟨hfrom, hrest⟩ := hc
          have hsub := subdivideGo_chain
            (MAX_APPROXIMATION_ITERATIONS - it.iteration) cubic rest
            it.iteration it.error_bound q hrest
          refine ⟨?_, ?_⟩
          · rw [approxQuad_from]
            rw [subdivide] at *
            exact hsub.1.trans hfrom
          · rw [approxQuad_to]
            exact ih _ _ _ (by omega) hsub.2

theorem cubicDrain_chain (c : CubicBezierSegment) (e : ℚ) :
    IsChain c.«from» (cubicDrain c e) c.«to» := by
  apply drainFuel_chain _ _ _ _ (le_refl _)
  show CChain c.«from» [(c.split (1/2)).1, (c.split (1/2)).2] c.«to»
  simp only [CChain]
  exact ⟨split_fst_from c (1/2), (split_fst_to_eq_snd_from c (1/2)).symm,
    split_snd_to c (1/2)⟩

theorem IsChain.head_from {p q : Point2D} {l : List QuadraticBezierSegment}
    (h : IsChain p l q) :
    ∀ s, l.head? = some s → s.«from» = p := by
  cases l with
  | nil => intro s hs; simp at hs
  | cons a l =>
      intro s hs
      simp only [List.head?] at hs
      cases hs
      exact h.1

theorem IsChain.getLast_to {l : List QuadraticBezierSegment} :
    ∀ {p q : Point2D}, IsChain p l q →
      ∀ s, l.getLast? = some s → s.«to» = q := by
  induction l with
  | nil => intro p q h s hs; simp at hs
  | cons a l ih =>
      intro p q h s hs
      cases l with
      | nil =>
          simp only [List.getLast?] at hs
          cases hs
          exact h.2
      | cons b l' =>
          exact ih h.2 s hs

theorem IsChain.adjacent {l : List QuadraticBezierSegment} :
    ∀ {p q : Point2D}, IsChain p l q →
      ∀ i (h1 : i + 1 < l.length),
        (l.get ⟨i, by omega⟩).«to» = (l.get ⟨i + 1, h1⟩).«from» := by
  induction l with
  | nil => intro p q _ i h1; simp at h1
  | cons a l ih =>
      intro p q h i h1
      cases i with
      | zero =>
          cases l with
          | nil => simp at h1
          | cons b l' => exact (h.2.1).symm
      | succ i =>
          exact ih h.2 i (by simpa using h1)

/-! ## Convergence-or-cap at every emission -/

theorem subdivideGo_post (rem : Nat) (c : CubicBezierSegment)
    (st : List CubicBezierSegment) (i : Nat) (e : ℚ) :
    maxErrorLt (subdivideGo rem c st i e).1 e = true ∨
      (subdivideGo rem c st i e).2.2 = i + rem := by
  induction rem generalizing c st i with
  | zero => right; rfl
  | succ rem ih =>
      by_cases he : maxErrorLt c e
      · left; simp [subdivideGo, he]
      · simp only [subdivideGo, he, Bool.false_eq_true, if_false]
        rcases ih (c.split (1/2)).1 ((c.split (1/2)).2 :: st) (i + 1) with h | h
        · left; exact h
        · right; omega

/-! ## Reduction of the subdivision process to depth bookkeeping

Splitting a cubic at `0.5` scales its third-difference vector
`delta_ctrl_0` by exactly `1/8` in both halves, so its squared length by
`1/64`.  Hence every pending sub-segment at subdivision depth `d` has
`lengthSq (delta_ctrl_0) * 64^d = M`, where `M` is the value at the input
cubic, and the error test depends only on `d`.  This lets the whole
emission count be computed by a machine over depths. -/

theorem lengthSq_smul (p : Point2D) (s : ℚ) :
    (p * s).lengthSq = p.lengthSq * s ^ 2 := by
  simp only [Point2D.lengthSq, smul_x, smul_y]
  ring

theorem delta_ctrl_1_eq_neg (c : CubicBezierSegment) :
    delta_ctrl_1 c = -(delta_ctrl_0 c) := by
  apply Point2D.ext' <;>
    simp only [delta_ctrl_0, delta_ctrl_1, add_x, add_y, sub_x, sub_y,
      smul_x, smul_y, neg_x, neg_y] <;> ring

theorem delta_ctrl_0_split_fst (c : CubicBezierSegment) :
    delta_ctrl_0 ((c.split (1/2)).1) = delta_ctrl_0 c * ((1 : ℚ)/8) := by
  apply Point2D.ext' <;>
    simp only [delta_ctrl_0, CubicBezierSegment.split, Point2D.lerp,
      add_x, add_y, sub_x, sub_y, smul_x, smul_y] <;> ring

theorem delta_ctrl_0_split_snd (c : CubicBezierSegment) :
    delta_ctrl_0 ((c.split (1/2)).2) = delta_ctrl_0 c * ((1 : ℚ)/8) := by
  apply Point2D.ext' <;>
    simp only [delta_ctrl_0, CubicBezierSegment.split, Point2D.lerp,
      add_x, add_y, sub_x, sub_y, smul_x, smul_y] <;> ring

/-- The error test as a function of the depth `d` alone:
`qCheck M e d = maxErrorLt c e` whenever `lengthSq (delta_ctrl_0 c) * 64^d = M`. -/
def qCheck (M e : ℚ) (d : Nat) : Bool :=
  decide (0 < e) && decide (M < 36 * e ^ 2 * 64 ^ d)

theorem maxErrorLt_eq_qCheck {M e : ℚ} {c : CubicBezierSegment} {d : Nat}
    (hM : (delta_ctrl_0 c).lengthSq * 64 ^ d = M) :
    maxErrorLt c e = qCheck M e d := by
  have h64 : (0 : ℚ) < 64 ^ d := by positivity
  unfold maxErrorLt qCheck
  rw [delta_ctrl_1_eq_neg, lengthSq_neg, fmax_self]
  congr 1
  rw [decide_eq_decide, ← hM]
  exact (mul_lt_mul_right h64).symm

theorem qCheck_mono_d {M e : ℚ} {d d' : Nat} (hdd : d ≤ d')
    (h : qCheck M e d = true) : qCheck M e d' = true := by
  unfold qCheck at h ⊢
  simp only [Bool.and_eq_true, decide_eq_true_eq] at h ⊢
  refine ⟨h.1, lt_of_lt_of_le h.2 ?_⟩
  have : (64 : ℚ) ^ d ≤ 64 ^ d' := by
    apply pow_le_pow_right₀ (by norm_num) hdd
  have he2 : (0 : ℚ) ≤ 36 * e ^ 2 := by positivity
  exact mul_le_mul_of_nonneg_left this he2

/-- The depth threshold: number of depths in `0..33` failing the error
test.  By monotonicity of `qCheck` in `d`, the test at depth `d ≤ 33` holds
iff `kOf M e ≤ d`.  All depths the capped process ever tests are `≤ 33`. -/
def kOf (M e : ℚ) : Nat :=
  (List.range 34).countP (fun d => !(qCheck M e d))

theorem kOf_le_34 (M e : ℚ) : kOf M e ≤ 34 := by
  have := List.countP_le_length (l := List.range 34)
    (p := fun d => !(qCheck M e d))
  simpa using this

theorem countP_range_lt (d : Nat) :
    ∀ n, (List.range n).countP (fun x => decide (x < d)) = min d n := by
  intro n
  induction n with
  | zero => simp
  | succ n ih =>
      rw [List.range_succ, List.countP_append, ih]
      by_cases h : n < d
      · simp [h]; omega
      · simp [h]; omega

theorem qCheck_iff_kOf {M e : ℚ} {d : Nat} (hd : d ≤ 33) :
    qCheck M e d = true ↔ kOf M e ≤ d := by
  constructor
  · intro h
    unfold kOf
    have hle : (List.range 34).countP (fun x => !(qCheck M e x)) ≤
        (List.range 34).countP (fun x => decide (x < d)) := by
      apply List.countP_mono_left
      intro x _ hx
      simp only [Bool.not_eq_true'] at hx
      simp only [decide_eq_true_eq]
      by_contra hxd
      have hq : qCheck M e x = true := qCheck_mono_d (by omega) h
      rw [hq] at hx
      exact Bool.noConfusion hx
    rw [countP_range_lt] at hle
    omega
  · intro h
    by_contra hq
    have hfail : ∀ x ∈ List.range (d + 1), (!(qCheck M e x)) = true := by
      intro x hx
      simp only [List.mem_range] at hx
      simp only [Bool.not_eq_true']
      by_contra hx2
      simp only [Bool.not_eq_false] at hx2
      exact hq (qCheck_mono_d (by omega) hx2)
    have hsub : List.Sublist (List.range (d + 1)) (List.range 34) :=
      List.range_sublist.mpr (by omega)
    have hcount : (List.range (d + 1)).countP (fun x => !(qCheck M e x)) =
        d + 1 := by
      rw [List.countP_eq_length.mpr hfail, List.length_range]
    have := hsub.countP_le (p := fun x => !(qCheck M e x))
    unfold kOf at h
    omega

theorem DRel_split_fst {M : ℚ} {c : CubicBezierSegment} {d : Nat}
    (h : (delta_ctrl_0 c).lengthSq * 64 ^ d = M) :
    (delta_ctrl_0 ((c.split (1/2)).1)).lengthSq * 64 ^ (d + 1) = M := by
  rw [delta_ctrl_0_split_fst, lengthSq_smul, pow_succ, ← h]
  ring

theorem DRel_split_snd {M : ℚ} {c : CubicBezierSegment} {d : Nat}
    (h : (delta_ctrl_0 c).lengthSq * 64 ^ d = M) :
    (delta_ctrl_0 ((c.split (1/2)).2)).lengthSq * 64 ^ (d + 1) = M := by
  rw [delta_ctrl_0_split_snd, lengthSq_smul, pow_succ, ← h]
  ring

/-- The subdivision loop of lines 46-60 reduced to depths: at depth `d` the
error test holds iff `k ≤ d`.  Mirrors `subdivideGo` with the iteration
counter replaced by the remaining budget (`rem = 32 - iteration`). -/
def aSub (k : Nat) : Nat → Nat → List Nat → Nat × List Nat × Nat
  | 0, d, st => (d, st, 0)
  | rem + 1, d, st =>
      if k ≤ d then (d, st, rem)
      else aSub k rem (d + 1) ((d + 1) :: st)

/-- The emission count of the iterator reduced to depths; mirrors
`drainFuel`. -/
def aCountFuel (k : Nat) : Nat → List Nat → Nat → Nat
  | 0, _, _ => 0
  | fuel + 1, dst, rem =>
      match dst with
      | [] => 0
      | d :: rest =>
          let r := aSub k rem d rest
          aCountFuel k fuel r.2.1 r.2.2 + 1

/-- Total number of quadratics emitted for a cubic whose depth threshold is
`k` (two pending halves at depth 1, a budget of 32 tests). -/
def aCount (k : Nat) : Nat :=
  aCountFuel k (MAX_APPROXIMATION_ITERATIONS + 2) [1, 1]
    MAX_APPROXIMATION_ITERATIONS

theorem sim_subdivideGo (M e : ℚ) :
    ∀ (rem : Nat) (c : CubicBezierSegment) (st : List CubicBezierSegment)
      (i d : Nat) (dst : List Nat),
      rem + i = MAX_APPROXIMATION_ITERATIONS →
      (delta_ctrl_0 c).lengthSq * 64 ^ d = M → d ≤ i + 1 →
      List.Forall₂
        (fun c' d' => (delta_ctrl_0 c').lengthSq * 64 ^ d' = M ∧ d' ≤ i + 1)
        st dst →
      (subdivideGo rem c st i e).2.2 + (aSub (kOf M e) rem d dst).2.2 =
          MAX_APPROXIMATION_ITERATIONS ∧
        List.Forall₂
          (fun c' d' => (delta_ctrl_0 c').lengthSq * 64 ^ d' = M ∧
            d' ≤ (subdivideGo rem c st i e).2.2 + 1)
          (subdivideGo rem c st i e).2.1 (aSub (kOf M e) rem d dst).2.1 := by
  intro rem
  induction rem with
  | zero =>
      intro c st i d dst hrem hc hd hst
      simp only [subdivideGo, aSub]
      exact ⟨by omega, hst⟩
  | succ rem ih =>
      intro c st i d dst hrem hc hd hst
      have hmax32 : MAX_APPROXIMATION_ITERATIONS = 32 := rfl
      have hd33 : d ≤ 33 := by omega
      have hcheck : maxErrorLt c e = qCheck M e d := maxErrorLt_eq_qCheck hc
      by_cases hq : qCheck M e d = true
      · have hk : kOf M e ≤ d := (qCheck_iff_kOf hd33).mp hq
        have hmax : maxErrorLt c e = true := by rw [hcheck]; exact hq
        simp only [subdivideGo, aSub, hmax, if_true, hk]
        refine ⟨by omega, ?_⟩
        exact hst.imp (fun a b h => ⟨h.1, by omega⟩)
      · have hk : ¬ kOf M e ≤ d := fun h => hq ((qCheck_iff_kOf hd33).mpr h)
        have hq' : maxErrorLt c e = false := by
          rw [hcheck]
          cases hqq : qCheck M e d with
          | false => rfl
          | true => exact absurd hqq hq
        simp only [subdivideGo, hq', Bool.false_eq_true, if_false, aSub,
          hk, if_false]
        apply ih
        · omega
        · exact DRel_split_fst hc
        · omega
        · refine List.Forall₂.cons ⟨DRel_split_snd hc, by omega⟩ ?_
          exact hst.imp (fun a b h => ⟨h.1, by omega⟩)

theorem sim_drainFuel (M e : ℚ) :
    ∀ (fuel : Nat) (st : List CubicBezierSegment) (i : Nat) (dst : List Nat),
      i ≤ MAX_APPROXIMATION_ITERATIONS →
      List.Forall₂
        (fun c' d' => (delta_ctrl_0 c').lengthSq * 64 ^ d' = M ∧ d' ≤ i + 1)
        st dst →
      (drainFuel fuel ⟨st, e, i⟩).length =
        aCountFuel (kOf M e) fuel dst (MAX_APPROXIMATION_ITERATIONS - i) := by
  intro fuel
  induction fuel with
  | zero => intro st i dst _ _; rfl
  | succ fuel ih =>
      intro st i dst hi hst
      cases hst with
      | nil => rfl
      | @cons c d rest drest hrel htail =>
          have hsim := sim_subdivideGo M e
            (MAX_APPROXIMATION_ITERATIONS - i) c rest i d drest
            (by omega) hrel.1 hrel.2 htail
          obtain ⟨hsum, hF⟩ := hsim
          have hnext : (CubicToQuadraticSegmentIter.mk (c :: rest) e i).next =
              (some (approxQuad (subdivideGo
                  (MAX_APPROXIMATION_ITERATIONS - i) c rest i e).1),
               ⟨(subdivideGo (MAX_APPROXIMATION_ITERATIONS - i) c rest i e).2.1,
                e,
                (subdivideGo (MAX_APPROXIMATION_ITERATIONS - i) c rest i e).2.2⟩) := by
            simp [CubicToQuadraticSegmentIter.next, subdivide]
          rw [drainFuel, hnext]
          simp only [List.length_cons]
          have hi' : (subdivideGo (MAX_APPROXIMATION_ITERATIONS - i)
              c rest i e).2.2 ≤ MAX_APPROXIMATION_ITERATIONS := by omega
          have := ih (subdivideGo (MAX_APPROXIMATION_ITERATIONS - i)
              c rest i e).2.1
            (subdivideGo (MAX_APPROXIMATION_ITERATIONS - i) c rest i e).2.2
            (aSub (kOf M e) (MAX_APPROXIMATION_ITERATIONS - i) d drest).2.1
            hi' hF
          rw [this]
          have : (aSub (kOf M e) (MAX_APPROXIMATION_ITERATIONS - i)
              d drest).2.2 = MAX_APPROXIMATION_ITERATIONS -
              (subdivideGo (MAX_APPROXIMATION_ITERATIONS - i) c rest i e).2.2 := by
            omega
          rw [← this]
          rfl

/-- The emission count of a cubic depends only on the squared length of its
third-difference vector, through the depth threshold `kOf`. -/
theorem cubicDrain_length_eq_aCount (c : CubicBezierSegment) (e : ℚ) :
    (cubicDrain c e).length =
      aCount (kOf ((delta_ctrl_0 c).lengthSq) e) := by
  have hbase : (delta_ctrl_0 c).lengthSq * 64 ^ 0 =
      (delta_ctrl_0 c).lengthSq := by rw [pow_zero, mul_one]
  have h1 := DRel_split_fst (c := c) (d := 0) hbase
  have h2 := DRel_split_snd (c := c) (d := 0) hbase
  have hF : List.Forall₂
      (fun c' d' => (delta_ctrl_0 c').lengthSq * 64 ^ d' =
        (delta_ctrl_0 c).lengthSq ∧ d' ≤ 0 + 1)
      [(c.split (1/2)).1, (c.split (1/2)).2] [1, 1] :=
    List.Forall₂.cons ⟨h1, le_refl 1⟩
      (List.Forall₂.cons ⟨h2, le_refl 1⟩ List.Forall₂.nil)
  have := sim_drainFuel ((delta_ctrl_0 c).lengthSq) e
    (MAX_APPROXIMATION_ITERATIONS + 2)
    [(c.split (1/2)).1, (c.split (1/2)).2] 0 [1, 1] (by omega) hF
  exact this

/-- The decided monotonicity table of `aCount` over all reachable depth
thresholds `0..34`. -/
theorem aCount_table : ((List.range 35).all fun k1 =>
    (List.range (k1 + 1)).all fun k2 => decide (aCount k2 ≤ aCount k1)) =
      true := by decide

theorem aCount_mono {k2 k1 : Nat} (h2 : k2 ≤ k1) (h1 : k1 ≤ 34) :
    aCount k2 ≤ aCount k1 := by
  have ht := aCount_table
  rw [List.all_eq_true] at ht
  have hk1 := ht k1 (List.mem_range.mpr (by omega))
  rw [List.all_eq_true] at hk1
  have hk2 := hk1 k2 (List.mem_range.mpr (by omega))
  exact of_decide_eq_true hk2

theorem qCheck_mono_e {M e1 e2 : ℚ} {d : Nat} (h1 : 0 < e1) (h12 : e1 ≤ e2)
    (h : qCheck M e1 d = true) : qCheck M e2 d = true := by
  unfold qCheck at h ⊢
  simp only [Bool.and_eq_true, decide_eq_true_eq] at h ⊢
  refine ⟨lt_of_lt_of_le h1 h12, lt_of_lt_of_le h.2 ?_⟩
  have hsq : e1 ^ 2 ≤ e2 ^ 2 := by
    apply pow_le_pow_left₀ h1.le h12
  have h64 : (0 : ℚ) ≤ 64 ^ d := by positivity
  apply mul_le_mul_of_nonneg_right _ h64
  linarith

theorem kOf_antitone {M e1 e2 : ℚ} (h1 : 0 < e1) (h12 : e1 ≤ e2) :
    kOf M e2 ≤ kOf M e1 := by
  apply List.countP_mono_left
  intro d _ hd
  simp only [Bool.not_eq_true'] at hd ⊢
  cases hq : qCheck M e1 d with
  | false => rfl
  | true => rw [qCheck_mono_e h1 h12 hq] at hd; exact Bool.noConfusion hd

/-- Monotonicity of the emission count in the error bound. -/
theorem cubicDrain_length_antitone (c : CubicBezierSegment) {e1 e2 : ℚ}
    (h1 : 0 < e1) (h12 : e1 ≤ e2) :
    (cubicDrain c e2).length ≤ (cubicDrain c e1).length := by
  rw [cubicDrain_length_eq_aCount, cubicDrain_length_eq_aCount]
  exact aCount_mono (kOf_antitone h1 h12) (kOf_le_34 _ _)

/-! ## Arc iterator and the event-stream transformer -/

/-- `lyon_path`'s `PathEvent` (the 2018-era variants the source matches). -/
inductive PathEvent where
  | MoveTo (p : Point2D)
  | LineTo (p : Point2D)
  | QuadraticTo (ctrl p : Point2D)
  | CubicTo (ctrl1 ctrl2 p : Point2D)
  | Arc (p vector : Point2D) (angle_from angle_to : ℚ)
  | Close
deriving DecidableEq, Repr

/-- `lyon_geom`'s `Arc` description (the fields the source constructs,
lines 162-168); angles as exact rationals. -/
structure Arc where
  center : Point2D
  radii : Point2D
  start_angle : ℚ
  sweep_angle : ℚ
  x_rotation : ℚ
deriving DecidableEq, Repr

/- Modelled from the spec: `arcQuads` is the external arc-decomposition
collaborator (`Arc::for_each_quadratic_bezier`), abstracted as the ordered
list of quadratic segments it generates for an arc; `angle_from_x_axis` is
`euclid`'s `angle_from_x_axis` (an atan2), abstracted as an arbitrary
angle-valued function of a vector.  The development is parameterized over
both. -/
variable (arcQuads : Arc → List QuadraticBezierSegment)
variable (angle_from_x_axis : Point2D → ℚ)

/-- State of `ArcToQuadraticSegmentIter` (lines 73-76): the buffered
quadratics, in the collaborator's generation order (`new`, lines 78-88,
pushes each generated segment in turn). -/
structure ArcToQuadraticSegmentIter where
  segments : List QuadraticBezierSegment
deriving DecidableEq, Repr

/-- `ArcToQuadraticSegmentIter::new` (lines 78-88). -/
def ArcToQuadraticSegmentIter.new (arc : Arc) : ArcToQuadraticSegmentIter :=
  { segments := arcQuads arc }

/-- `ArcToQuadraticSegmentIter::next` (lines 90-96): `self.segments.pop()`
removes from the end of the buffer. -/
def ArcToQuadraticSegmentIter.next (it : ArcToQuadraticSegmentIter) :
    Option QuadraticBezierSegment × ArcToQuadraticSegmentIter :=
  match it.segments.getLast? with
  | none => (none, it)
  | some q => (some q, ⟨it.segments.dropLast⟩)

def arcDrainFuel : Nat → ArcToQuadraticSegmentIter →
    List QuadraticBezierSegment
  | 0, _ => []
  | fuel + 1, it =>
      match it.next with
      | (none, _) => []
      | (some q, it') => q :: arcDrainFuel fuel it'

/-- The full emitted sequence of an `ArcToQuadraticSegmentIter`. -/
def ArcToQuadraticSegmentIter.drain (it : ArcToQuadraticSegmentIter) :
    List QuadraticBezierSegment :=
  arcDrainFuel it.segments.length it

theorem arcDrainFuel_reverse :
    ∀ (l : List QuadraticBezierSegment),
      arcDrainFuel l.length ⟨l⟩ = l.reverse := by
  intro l
  induction l using List.reverseRecOn with
  | nil => rfl
  | append_singleton l q ih =>
      rw [List.length_append, List.length_singleton]
      rw [arcDrainFuel]
      have hnext : (ArcToQuadraticSegmentIter.mk (l ++ [q])).next =
          (some q, ⟨l⟩) := by
        simp [ArcToQuadraticSegmentIter.next, List.getLast?_concat]
      rw [hnext]
      show q :: arcDrainFuel l.length ⟨l⟩ = (l ++ [q]).reverse
      rw [ih, List.reverse_append]
      rfl

/-- The emitted order is the reverse of the collaborator's generation
order. -/
theorem arc_drain_eq_reverse (arc : Arc) :
    (ArcToQuadraticSegmentIter.new arcQuads arc).drain =
      (arcQuads arc).reverse :=
  arcDrainFuel_reverse (arcQuads arc)

/-- The two concrete iterator types ever stored in the transformer's
`Box<dyn Iterator<Item = QuadraticBezierSegment<f32>>>` (line 102). -/
inductive SegIter where
  | cubic (it : CubicToQuadraticSegmentIter)
  | arc (it : ArcToQuadraticSegmentIter)
deriving DecidableEq, Repr

def SegIter.next : SegIter → Option QuadraticBezierSegment × SegIter
  | cubic it => ((it.next).1, cubic (it.next).2)
  | arc it => ((it.next).1, arc (it.next).2)

/-- Remaining-output measure of a boxed segment iterator. -/
def segM : SegIter → Nat
  | .cubic it => iterFuel it
  | .arc it => it.segments.length

/-- State of `CubicToQuadraticTransformer` (lines 98-105); the inbound
iterator is modelled by the list of its not-yet-pulled events. -/
structure CubicToQuadraticTransformer where
  inner : List PathEvent
  segment_iter : Option SegIter
  last_point : Point2D
  error_bound : ℚ
deriving DecidableEq, Repr

/-- `CubicToQuadraticTransformer::new` (lines 108-116):
`last_point = Point2D::zero()`. -/
def CubicToQuadraticTransformer.new (inner : List PathEvent)
    (error_bound : ℚ) : CubicToQuadraticTransformer :=
  { inner := inner, segment_iter := none, last_point := ⟨0, 0⟩,
    error_bound := error_bound }

/-- Lines 160-168: the `Arc` built from an arc event:
`center = to`, `radii = vector`,
`start_angle = (to - last_point).angle_from_x_axis() - angle_from`,
`sweep_angle = angle_to`, `x_rotation = angle_from`. -/
def eventArc (last_point p vector : Point2D)
    (angle_from angle_to : ℚ) : Arc :=
  { center := p, radii := vector,
    start_angle := angle_from_x_axis (p - last_point) - angle_from,
    sweep_angle := angle_to, x_rotation := angle_from }

/-- `CubicToQuadraticTransformer::next` (lines 122-176), as a recursion on
`fuel`: lines 123-127 try to emit from the draining iterator; line 129
clears it; lines 131-175 pull the next inner event, pass it through or
install a fresh segment iterator and recurse (`self.next()`).  Each
recursive call first consumes one inner event, so `fuel = inner.length`
(supplied by `CubicToQuadraticTransformer.next`) always suffices; the
fuel-exhausted arms are unreachable under that call pattern. -/
def nextGo (fuel : Nat) (t : CubicToQuadraticTransformer) :
    Option PathEvent × CubicToQuadraticTransformer :=
    let drained : Option (QuadraticBezierSegment × SegIter) :=
      match t.segment_iter with
      | some si =>
          match si.next with
          | (some q, si') => some (q, si')
          | (none, _) => none
      | none => none
    match drained with
    | some (q, si') =>
        (some (PathEvent.QuadraticTo q.ctrl q.«to»),
          { t with segment_iter := some si' })
    | none =>
      match t.inner with
      | [] => (none, { t with segment_iter := none })
      | PathEvent.CubicTo ctrl1 ctrl2 p :: rest =>
          match fuel with
          | 0 => (none, { t with segment_iter := none })
          | fuel + 1 =>
              nextGo fuel
                { inner := rest,
                  segment_iter := some (SegIter.cubic
                    (CubicToQuadraticSegmentIter.new
                      ⟨t.last_point, ctrl1, ctrl2, p⟩ t.error_bound)),
                  last_point := p,
                  error_bound := t.error_bound }
      | PathEvent.MoveTo p :: rest =>
          (some (PathEvent.MoveTo p),
            { t with inner := rest, segment_iter := none, last_point := p })
      | PathEvent.LineTo p :: rest =>
          (some (PathEvent.LineTo p),
            { t with inner := rest, segment_iter := none, last_point := p })
      | PathEvent.QuadraticTo ctrl p :: rest =>
          (some (PathEvent.QuadraticTo ctrl p),
            { t with inner := rest, segment_iter := none, last_point := p })
      | PathEvent.Close :: rest =>
          (some PathEvent.Close,
            { t with inner := rest, segment_iter := none })
      | PathEvent.Arc p vector angle_from angle_to :: rest =>
          match fuel with
          | 0 => (none, { t with segment_iter := none })
          | fuel + 1 =>
              nextGo fuel
                { inner := rest,
                  segment_iter := some (SegIter.arc
                    (ArcToQuadraticSegmentIter.new arcQuads
                      (eventArc angle_from_x_axis t.last_point p vector
                        angle_from angle_to))),
                  last_point := p,
                  error_bound := t.error_bound }

/-- `CubicToQuadraticTransformer::next` (lines 122-176). -/
def CubicToQuadraticTransformer.next (t : CubicToQuadraticTransformer) :
    Option PathEvent × CubicToQuadraticTransformer :=
  nextGo arcQuads angle_from_x_axis t.inner.length t

/-! ## Measures and exhaustion of the transformer -/

theorem next_none_of_nil_fst (it : CubicToQuadraticSegmentIter)
    (h : (it.next).1 = none) : it.cubic_curves = [] := by
  cases hc : it.cubic_curves with
  | nil => rfl
  | cons c rest => simp [CubicToQuadraticSegmentIter.next, hc] at h

theorem segM_next_lt {si si' : SegIter} {q : QuadraticBezierSegment}
    (h : si.next = (some q, si')) : segM si' < segM si := by
  cases si with
  | cubic it =>
      simp only [SegIter.next, Prod.mk.injEq] at h
      obtain ⟨h1, h2⟩ := h
      subst h2
      simp only [segM]
      exact next_fuel_lt (Prod.ext h1 rfl)
  | arc it =>
      cases hL : it.segments.getLast? with
      | none =>
          simp [SegIter.next, ArcToQuadraticSegmentIter.next, hL] at h
      | some q0 =>
          simp only [SegIter.next, ArcToQuadraticSegmentIter.next, hL,
            Prod.mk.injEq] at h
          obtain ⟨h1, h2⟩ := h
          subst h2
          simp only [segM]
          have hne : it.segments ≠ [] := by
            intro hnil
            rw [hnil] at hL
            simp at hL
          have hpos : 0 < it.segments.length := List.length_pos.mpr hne
          rw [List.length_dropLast]
          omega

/-- Measure of the optional boxed iterator slot. -/
def tsegM : Option SegIter → Nat
  | none => 0
  | some si => segM si + 1

theorem nextGo_some_lex (AQ : Arc → List QuadraticBezierSegment)
    (AF : Point2D → ℚ) :
    ∀ (fuel : Nat) (t t' : CubicToQuadraticTransformer) (ev : PathEvent),
      nextGo AQ AF fuel t = (some ev, t') →
      t'.inner.length < t.inner.length ∨
        (t'.inner.length = t.inner.length ∧
          tsegM t'.segment_iter < tsegM t.segment_iter) := by
  intro fuel
  induction fuel with
  | zero =>
      intro t t' ev h
      rw [nextGo.eq_def] at h
      match hsi : t.segment_iter with
      | some si =>
          rw [hsi] at h
          simp only at h
          match hn : si.next with
          | (some q, si') =>
              rw [hn] at h
              simp only [Prod.mk.injEq] at h
              obtain ⟨-, h2⟩ := h
              subst h2
              right
              refine ⟨rfl, ?_⟩
              simp only [hsi, tsegM]
              have := segM_next_lt hn
              omega
          | (none, sx) =>
              rw [hn] at h
              simp only at h
              match hi : t.inner with
              | [] => rw [hi] at h; simp at h
              | PathEvent.CubicTo c1 c2 p :: rest =>
                  rw [hi] at h; simp at h
              | PathEvent.MoveTo p :: rest =>
                  rw [hi] at h
                  simp only [Prod.mk.injEq] at h
                  obtain ⟨-, h2⟩ := h
                  subst h2
                  left
                  simp [hi]
              | PathEvent.LineTo p :: rest =>
                  rw [hi] at h
                  simp only [Prod.mk.injEq] at h
                  obtain ⟨-, h2⟩ := h
                  subst h2
                  left
                  simp [hi]
              | PathEvent.QuadraticTo c p :: rest =>
                  rw [hi] at h
                  simp only [Prod.mk.injEq] at h
                  obtain ⟨-, h2⟩ := h
                  subst h2
                  left
                  simp [hi]
              | PathEvent.Close :: rest =>
                  rw [hi] at h
                  simp only [Prod.mk.injEq] at h
                  obtain ⟨-, h2⟩ := h
                  subst h2
                  left
                  simp [hi]
              | PathEvent.Arc p v af at' :: rest =>
                  rw [hi] at h; simp at h
      | none =>
          rw [hsi] at h
          simp only at h
          match hi : t.inner with
          | [] => rw [hi] at h; simp at h
          | PathEvent.CubicTo c1 c2 p :: rest =>
              rw [hi] at h; simp at h
          | PathEvent.MoveTo p :: rest =>
              rw [hi] at h
              simp only [Prod.mk.injEq] at h
              obtain ⟨-, h2⟩ := h
              subst h2
              left
              simp [hi]
          | PathEvent.LineTo p :: rest =>
              rw [hi] at h
              simp only [Prod.mk.injEq] at h
              obtain ⟨-, h2⟩ := h
              subst h2
              left
              simp [hi]
          | PathEvent.QuadraticTo c p :: rest =>
              rw [hi] at h
              simp only [Prod.mk.injEq] at h
              obtain ⟨-, h2⟩ := h
              subst h2
              left
              simp [hi]
          | PathEvent.Close :: rest =>
              rw [hi] at h
              simp only [Prod.mk.injEq] at h
              obtain ⟨-, h2⟩ := h
              subst h2
              left
              simp [hi]
          | PathEvent.Arc p v af at' :: rest =>
              rw [hi] at h; simp at h
  | succ fuel ih =>
      intro t t' ev h
      rw [nextGo.eq_def] at h
      match hsi : t.segment_iter with
      | some si =>
          rw [hsi] at h
          simp only at h
          match hn : si.next with
          | (some q, si') =>
              rw [hn] at h
              simp only [Prod.mk.injEq] at h
              obtain ⟨-, h2⟩ := h
              subst h2
              right
              refine ⟨rfl, ?_⟩
              simp only [hsi, tsegM]
              have := segM_next_lt hn
              omega
          | (none, sx) =>
              rw [hn] at h
              simp only at h
              match hi : t.inner with
              | [] => rw [hi] at h; simp at h
              | PathEvent.CubicTo c1 c2 p :: rest =>
                  rw [hi] at h
                  simp only at h
                  have hih := ih _ t' ev h
                  simp only at hih
                  rcases hih with h1 | ⟨h1, -⟩ <;>
                    (left; simp only [hi, List.length_cons]; omega)
              | PathEvent.MoveTo p :: rest =>
                  rw [hi] at h
                  simp only [Prod.mk.injEq] at h
                  obtain ⟨-, h2⟩ := h
                  subst h2
                  left
                  simp [hi]
              | PathEvent.LineTo p :: rest =>
                  rw [hi] at h
                  simp only [Prod.mk.injEq] at h
                  obtain ⟨-, h2⟩ := h
                  subst h2
                  left
                  simp [hi]
              | PathEvent.QuadraticTo c p :: rest =>
                  rw [hi] at h
                  simp only [Prod.mk.injEq] at h
                  obtain ⟨-, h2⟩ := h
                  subst h2
                  left
                  simp [hi]
              | PathEvent.Close :: rest =>
                  rw [hi] at h
                  simp only [Prod.mk.injEq] at h
                  obtain ⟨-, h2⟩ := h
                  subst h2
                  left
                  simp [hi]
              | PathEvent.Arc p v af at' :: rest =>
                  rw [hi] at h
                  simp only at h
                  have hih := ih _ t' ev h
                  simp only at hih
                  rcases hih with h1 | ⟨h1, -⟩ <;>
                    (left; simp only [hi, List.length_cons]; omega)
      | none =>
          rw [hsi] at h
          simp only at h
          match hi : t.inner with
          | [] => rw [hi] at h; simp at h
          | PathEvent.CubicTo c1 c2 p :: rest =>
              rw [hi] at h
              simp only at h
              have hih := ih _ t' ev h
              simp only at hih
              rcases hih with h1 | ⟨h1, -⟩ <;>
                (left; simp only [hi, List.length_cons]; omega)
          | PathEvent.MoveTo p :: rest =>
              rw [hi] at h
              simp only [Prod.mk.injEq] at h
              obtain ⟨-, h2⟩ := h
              subst h2
              left
              simp [hi]
          | PathEvent.LineTo p :: rest =>
              rw [hi] at h
              simp only [Prod.mk.injEq] at h
              obtain ⟨-, h2⟩ := h
              subst h2
              left
              simp [hi]
          | PathEvent.QuadraticTo c p :: rest =>
              rw [hi] at h
              simp only [Prod.mk.injEq] at h
              obtain ⟨-, h2⟩ := h
              subst h2
              left
              simp [hi]
          | PathEvent.Close :: rest =>
              rw [hi] at h
              simp only [Prod.mk.injEq] at h
              obtain ⟨-, h2⟩ := h
              subst h2
              left
              simp [hi]
          | PathEvent.Arc p v af at' :: rest =>
              rw [hi] at h
              simp only at h
              have hih := ih _ t' ev h
              simp only at hih
              rcases hih with h1 | ⟨h1, -⟩ <;>
                (left; simp only [hi, List.length_cons]; omega)

/-- Pull the transformer to exhaustion, collecting all emitted events:
the full output stream for the remaining input. -/
def tdrain (t : CubicToQuadraticTransformer) : List PathEvent :=
  match h : CubicToQuadraticTransformer.next arcQuads angle_from_x_axis t with
  | (none, _) => []
  | (some ev, t') => ev :: tdrain t'
termination_by (t.inner.length, tsegM t.segment_iter)
decreasing_by
  rcases nextGo_some_lex arcQuads angle_from_x_axis t.inner.length t t' ev h
    with h1 | ⟨h1, h2⟩
  · exact Prod.Lex.left _ _ h1
  · rw [h1]
    exact Prod.Lex.right _ h2

theorem tdrain_eq_nil (AQ : Arc → List QuadraticBezierSegment)
    (AF : Point2D → ℚ) (t t'' : CubicToQuadraticTransformer)
    (h : CubicToQuadraticTransformer.next AQ AF t = (none, t'')) :
    tdrain AQ AF t = [] := by
  rw [tdrain.eq_def, h]

theorem tdrain_eq_cons (AQ : Arc → List QuadraticBezierSegment)
    (AF : Point2D → ℚ) (t t' : CubicToQuadraticTransformer) (ev : PathEvent)
    (h : CubicToQuadraticTransformer.next AQ AF t = (some ev, t')) :
    tdrain AQ AF t = ev :: tdrain AQ AF t' := by
  rw [tdrain.eq_def, h]

theorem tdrain_eq_of_next_eq (AQ : Arc → List QuadraticBezierSegment)
    (AF : Point2D → ℚ) (t1 t2 : CubicToQuadraticTransformer)
    (h : CubicToQuadraticTransformer.next AQ AF t1 =
      CubicToQuadraticTransformer.next AQ AF t2) :
    tdrain AQ AF t1 = tdrain AQ AF t2 := by
  rw [tdrain.eq_def, tdrain.eq_def, h]

/-! ## Draining a boxed segment iterator -/

def segDrainFuel (fuel : Nat) (si : SegIter) :
    List QuadraticBezierSegment :=
  match fuel, si.next with
  | 0, _ => []
  | _ + 1, (none, _) => []
  | fuel + 1, (some q, si') => q :: segDrainFuel fuel si'

/-- The full remaining output of a boxed segment iterator. -/
def SegIter.drain (si : SegIter) : List QuadraticBezierSegment :=
  segDrainFuel (segM si) si

theorem segM_zero_next_none {si : SegIter} (h : segM si = 0) :
    (si.next).1 = none := by
  cases si with
  | cubic it =>
      simp only [segM, iterFuel] at h
      have : it.cubic_curves = [] := by
        cases hc : it.cubic_curves with
        | nil => rfl
        | cons a l => rw [hc] at h; simp at h
      simp [SegIter.next, CubicToQuadraticSegmentIter.next, this]
  | arc it =>
      simp only [segM] at h
      have : it.segments = [] := List.length_eq_zero.mp h
      simp [SegIter.next, ArcToQuadraticSegmentIter.next, this]

theorem segDrainFuel_congr :
    ∀ {f1 f2 : Nat} {si : SegIter}, segM si ≤ f1 → segM si ≤ f2 →
      segDrainFuel f1 si = segDrainFuel f2 si := by
  suffices H : ∀ f1 f2 (si : SegIter), segM si ≤ f1 → segM si ≤ f2 →
      segDrainFuel f1 si = segDrainFuel f2 si by
    intro f1 f2 si h1 h2; exact H f1 f2 si h1 h2
  intro f1
  induction f1 with
  | zero =>
      intro f2 si h1 _
      have hz : segM si = 0 := by omega
      have hn := segM_zero_next_none hz
      match hsn : si.next with
      | (none, x) =>
          cases f2 with
          | zero => rfl
          | succ f2 => rw [segDrainFuel.eq_def, segDrainFuel.eq_def, hsn]
      | (some q, si') => rw [hsn] at hn; simp at hn
  | succ f1 ih =>
      intro f2 si h1 h2
      match hsn : si.next with
      | (none, x) =>
          cases f2 with
          | zero => rw [segDrainFuel.eq_def, segDrainFuel.eq_def, hsn]
          | succ f2 => rw [segDrainFuel.eq_def, segDrainFuel.eq_def, hsn]
      | (some q, si') =>
          cases f2 with
          | zero =>
              have hz : segM si = 0 := by omega
              have hn := segM_zero_next_none hz
              rw [hsn] at hn; simp at hn
          | succ f2 =>
              have hlt := segM_next_lt hsn
              rw [segDrainFuel.eq_def, segDrainFuel.eq_def, hsn]
              simp only
              exact congrArg (fun l => q :: l) (ih f2 si' (by omega) (by omega))

theorem segDrain_eq_nil {si : SegIter} (h : (si.next).1 = none) :
    si.drain = [] := by
  unfold SegIter.drain
  match hsn : si.next with
  | (none, x) =>
      cases hf : segM si with
      | zero => rfl
      | succ f => rw [segDrainFuel.eq_def, hsn]
  | (some q, si') => rw [hsn] at h; simp at h

theorem segDrain_eq_cons {si si' : SegIter} {q : QuadraticBezierSegment}
    (h : si.next = (some q, si')) : si.drain = q :: si'.drain := by
  have hlt := segM_next_lt h
  unfold SegIter.drain
  cases hf : segM si with
  | zero => omega
  | succ f =>
      rw [segDrainFuel.eq_def, h]
      simp only
      exact congrArg (fun l => q :: l)
        (segDrainFuel_congr (by omega) (le_refl _))

/-- The boxed cubic iterator drains to exactly the plain iterator's
sequence. -/
theorem segDrain_cubic :
    ∀ (n : Nat) (it : CubicToQuadraticSegmentIter), iterFuel it ≤ n →
      (SegIter.cubic it).drain = it.drain := by
  intro n
  induction n with
  | zero =>
      intro it h
      have hnil : it.cubic_curves = [] := by
        simp only [iterFuel] at h
        cases hc : it.cubic_curves with
        | nil => rfl
        | cons a l => rw [hc] at h; simp at h
      rw [drain_eq_nil it hnil]
      apply segDrain_eq_nil
      simp [SegIter.next, CubicToQuadraticSegmentIter.next, hnil]
  | succ n ih =>
      intro it h
      match hc : it.cubic_curves with
      | [] =>
          rw [drain_eq_nil it hc]
          apply segDrain_eq_nil
          simp [SegIter.next, CubicToQuadraticSegmentIter.next, hc]
      | cubic :: rest =>
          have hnext : it.next =
              (some (approxQuad (subdivide cubic rest it.iteration
                it.error_bound).1),
               { it with
                  cubic_curves :=
                    (subdivide cubic rest it.iteration it.error_bound).2.1,
                  iteration :=
                    (subdivide cubic rest it.iteration it.error_bound).2.2 }) := by
            simp [CubicToQuadraticSegmentIter.next, hc]
          have hsn : (SegIter.cubic it).next =
              ((it.next).1, SegIter.cubic (it.next).2) := rfl
          rw [hnext] at hsn
          simp only at hsn
          have hlt := next_fuel_lt hnext
          rw [drain_eq_cons hnext, segDrain_eq_cons hsn]
          have hrec := ih { it with
              cubic_curves :=
                (subdivide cubic rest it.iteration it.error_bound).2.1,
              iteration :=
                (subdivide cubic rest it.iteration it.error_bound).2.2 }
            (by omega)
          rw [hrec]

/-- The boxed arc iterator drains to the reverse of its buffer. -/
theorem segDrain_arc :
    ∀ (l : List QuadraticBezierSegment),
      (SegIter.arc ⟨l⟩).drain = l.reverse := by
  intro l
  induction l using List.reverseRecOn with
  | nil => rfl
  | append_singleton l q ih =>
      have hnext : (SegIter.arc ⟨l ++ [q]⟩).next =
          (some q, SegIter.arc ⟨l⟩) := by
        simp [SegIter.next, ArcToQuadraticSegmentIter.next,
          List.getLast?_concat]
      rw [segDrain_eq_cons hnext, ih, List.reverse_append]
      rfl

/-! ## Unfolding lemmas for the transformer and the output characterization -/

theorem next_drain_emit (AQ : Arc → List QuadraticBezierSegment)
    (AF : Point2D → ℚ) (inner : List PathEvent) (si : SegIter)
    (last : Point2D) (e : ℚ) (q : QuadraticBezierSegment) (si' : SegIter)
    (hn : si.next = (some q, si')) :
    CubicToQuadraticTransformer.next AQ AF ⟨inner, some si, last, e⟩ =
      (some (PathEvent.QuadraticTo q.ctrl q.«to»),
        ⟨inner, some si', last, e⟩) := by
  unfold CubicToQuadraticTransformer.next
  rw [nextGo.eq_def]
  simp only [hn]

theorem next_exhausted (AQ : Arc → List QuadraticBezierSegment)
    (AF : Point2D → ℚ) (inner : List PathEvent) (si : SegIter)
    (last : Point2D) (e : ℚ) (x : SegIter) (hn : si.next = (none, x)) :
    CubicToQuadraticTransformer.next AQ AF ⟨inner, some si, last, e⟩ =
      CubicToQuadraticTransformer.next AQ AF ⟨inner, none, last, e⟩ := by
  unfold CubicToQuadraticTransformer.next
  rw [nextGo.eq_def, nextGo.eq_def]
  simp only [hn]

theorem next_cubic_event (AQ : Arc → List QuadraticBezierSegment)
    (AF : Point2D → ℚ) (c1 c2 p : Point2D) (rest : List PathEvent)
    (last : Point2D) (e : ℚ) :
    CubicToQuadraticTransformer.next AQ AF
        ⟨PathEvent.CubicTo c1 c2 p :: rest, none, last, e⟩ =
      CubicToQuadraticTransformer.next AQ AF
        ⟨rest, some (SegIter.cubic (CubicToQuadraticSegmentIter.new
          ⟨last, c1, c2, p⟩ e)), p, e⟩ := rfl

theorem next_arc_event (AQ : Arc → List QuadraticBezierSegment)
    (AF : Point2D → ℚ) (p v : Point2D) (af at' : ℚ)
    (rest : List PathEvent) (last : Point2D) (e : ℚ) :
    CubicToQuadraticTransformer.next AQ AF
        ⟨PathEvent.Arc p v af at' :: rest, none, last, e⟩ =
      CubicToQuadraticTransformer.next AQ AF
        ⟨rest, some (SegIter.arc (ArcToQuadraticSegmentIter.new AQ
          (eventArc AF last p v af at'))), p, e⟩ := rfl

/-- Reference characterization of the transformer's full output, following
the spec's §4.3 wording: every cubic-draw and arc-draw event is replaced in
place by the corresponding approximator's full output as quadratic-draw
events (for an arc, the collaborator's sequence reversed); move-to,
line-to, quadratic-draw and close-subpath events pass through verbatim in
order; the tracked point is updated to each event's target and close-subpath
leaves it unchanged.  To be compared with `tdrain`. -/
def specExpand (e : ℚ) : Point2D → List PathEvent → List PathEvent
  | _, [] => []
  | _, PathEvent.MoveTo p :: rest =>
      PathEvent.MoveTo p :: specExpand e p rest
  | _, PathEvent.LineTo p :: rest =>
      PathEvent.LineTo p :: specExpand e p rest
  | _, PathEvent.QuadraticTo c p :: rest =>
      PathEvent.QuadraticTo c p :: specExpand e p rest
  | last, PathEvent.Close :: rest =>
      PathEvent.Close :: specExpand e last rest
  | last, PathEvent.CubicTo c1 c2 p :: rest =>
      (cubicDrain ⟨last, c1, c2, p⟩ e).map
        (fun q => PathEvent.QuadraticTo q.ctrl q.«to») ++ specExpand e p rest
  | last, PathEvent.Arc p v af at' :: rest =>
      ((arcQuads (eventArc angle_from_x_axis last p v af at')).reverse).map
        (fun q => PathEvent.QuadraticTo q.ctrl q.«to») ++ specExpand e p rest

theorem tdrain_some (AQ : Arc → List QuadraticBezierSegment)
    (AF : Point2D → ℚ) :
    ∀ (n : Nat) (si : SegIter), segM si ≤ n →
      ∀ (inner : List PathEvent) (last : Point2D) (e : ℚ),
      tdrain AQ AF ⟨inner, some si, last, e⟩ =
        (si.drain).map (fun q => PathEvent.QuadraticTo q.ctrl q.«to») ++
          tdrain AQ AF ⟨inner, none, last, e⟩ := by
  intro n
  induction n with
  | zero =>
      intro si hm inner last e
      have hz : segM si = 0 := by omega
      have hnone := segM_zero_next_none hz
      match hsn : si.next with
      | (none, x) =>
          rw [segDrain_eq_nil hnone, List.map_nil, List.nil_append]
          exact tdrain_eq_of_next_eq AQ AF _ _
            (next_exhausted AQ AF inner si last e x hsn)
      | (some q, si') => rw [hsn] at hnone; simp at hnone
  | succ n ih =>
      intro si hm inner last e
      match hsn : si.next with
      | (none, x) =>
          have hnone : (si.next).1 = none := by rw [hsn]
          rw [segDrain_eq_nil hnone, List.map_nil, List.nil_append]
          exact tdrain_eq_of_next_eq AQ AF _ _
            (next_exhausted AQ AF inner si last e x hsn)
      | (some q, si') =>
          have hemit := next_drain_emit AQ AF inner si last e q si' hsn
          rw [tdrain_eq_cons AQ AF _ _ _ hemit, segDrain_eq_cons hsn,
            List.map_cons, List.cons_append]
          have hlt := segM_next_lt hsn
          rw [ih si' (by omega) inner last e]

/-- The transformer's full output equals the spec's characterization. -/
theorem tdrain_eq_specExpand (AQ : Arc → List QuadraticBezierSegment)
    (AF : Point2D → ℚ) :
    ∀ (inner : List PathEvent) (last : Point2D) (e : ℚ),
      tdrain AQ AF ⟨inner, none, last, e⟩ = specExpand AQ AF e last inner := by
  intro inner
  induction inner with
  | nil =>
      intro last e
      rw [tdrain_eq_nil AQ AF ⟨[], none, last, e⟩ ⟨[], none, last, e⟩ rfl]
      rfl
  | cons ev rest ih =>
      intro last e
      cases ev with
      | MoveTo p =>
          rw [tdrain_eq_cons AQ AF ⟨PathEvent.MoveTo p :: rest, none, last, e⟩
            ⟨rest, none, p, e⟩ (PathEvent.MoveTo p) rfl, ih p e]
          rfl
      | LineTo p =>
          rw [tdrain_eq_cons AQ AF ⟨PathEvent.LineTo p :: rest, none, last, e⟩
            ⟨rest, none, p, e⟩ (PathEvent.LineTo p) rfl, ih p e]
          rfl
      | QuadraticTo c p =>
          rw [tdrain_eq_cons AQ AF
            ⟨PathEvent.QuadraticTo c p :: rest, none, last, e⟩
            ⟨rest, none, p, e⟩ (PathEvent.QuadraticTo c p) rfl, ih p e]
          rfl
      | Close =>
          rw [tdrain_eq_cons AQ AF ⟨PathEvent.Close :: rest, none, last, e⟩
            ⟨rest, none, last, e⟩ PathEvent.Close rfl, ih last e]
          rfl
      | CubicTo c1 c2 p =>
          rw [tdrain_eq_of_next_eq AQ AF _ _
            (next_cubic_event AQ AF c1 c2 p rest last e)]
          rw [tdrain_some AQ AF
            (segM (SegIter.cubic (CubicToQuadraticSegmentIter.new
              ⟨last, c1, c2, p⟩ e))) _ (le_refl _) rest p e]
          rw [segDrain_cubic (iterFuel (CubicToQuadraticSegmentIter.new
            ⟨last, c1, c2, p⟩ e)) _ (le_refl _)]
          rw [ih p e]
          rfl
      | Arc p v af at' =>
          rw [tdrain_eq_of_next_eq AQ AF _ _
            (next_arc_event AQ AF p v af at' rest last e)]
          rw [tdrain_some AQ AF
            (segM (SegIter.arc (ArcToQuadraticSegmentIter.new AQ
              (eventArc AF last p v af at')))) _ (le_refl _) rest p e]
          have harc : (SegIter.arc (ArcToQuadraticSegmentIter.new AQ
              (eventArc AF last p v af at'))).drain =
              (AQ (eventArc AF last p v af at')).reverse :=
            segDrain_arc (AQ (eventArc AF last p v af at'))
          rw [harc, ih p e]
          rfl

/-- Does the event draw a cubic or an arc? -/
def isCubicOrArcDraw : PathEvent → Bool
  | PathEvent.CubicTo _ _ _ => true
  | PathEvent.Arc _ _ _ _ => true
  | _ => false

theorem specExpand_no_cubic_arc (AQ : Arc → List QuadraticBezierSegment)
    (AF : Point2D → ℚ) :
    ∀ (inner : List PathEvent) (last : Point2D) (e : ℚ) (ev : PathEvent),
      ev ∈ specExpand AQ AF e last inner → isCubicOrArcDraw ev = false := by
  intro inner
  induction inner with
  | nil => intro last e ev h; simp [specExpand] at h
  | cons ev0 rest ih =>
      intro last e ev h
      cases ev0 with
      | MoveTo p =>
          simp only [specExpand, List.mem_cons] at h
          rcases h with h1 | h1
          · subst h1; rfl
          · exact ih p e ev h1
      | LineTo p =>
          simp only [specExpand, List.mem_cons] at h
          rcases h with h1 | h1
          · subst h1; rfl
          · exact ih p e ev h1
      | QuadraticTo c p =>
          simp only [specExpand, List.mem_cons] at h
          rcases h with h1 | h1
          · subst h1; rfl
          · exact ih p e ev h1
      | Close =>
          simp only [specExpand, List.mem_cons] at h
          rcases h with h1 | h1
          · subst h1; rfl
          · exact ih last e ev h1
      | CubicTo c1 c2 p =>
          simp only [specExpand, List.mem_append] at h
          rcases h with h1 | h1
          · obtain ⟨q, -, hq⟩ := List.mem_map.mp h1
            rw [← hq]; rfl
          · exact ih p e ev h1
      | Arc p v af at' =>
          simp only [specExpand, List.mem_append] at h
          rcases h with h1 | h1
          · obtain ⟨q, -, hq⟩ := List.mem_map.mp h1
            rw [← hq]; rfl
          · exact ih p e ev h1

theorem specExpand_length_ge (AQ : Arc → List QuadraticBezierSegment)
    (AF : Point2D → ℚ) (harc : ∀ a, AQ a ≠ []) :
    ∀ (inner : List PathEvent) (last : Point2D) (e : ℚ),
      inner.length ≤ (specExpand AQ AF e last inner).length := by
  intro inner
  induction inner with
  | nil => intro last e; simp [specExpand]
  | cons ev0 rest ih =>
      intro last e
      cases ev0 with
      | MoveTo p =>
          simp only [specExpand, List.length_cons]
          have := ih p e; omega
      | LineTo p =>
          simp only [specExpand, List.length_cons]
          have := ih p e; omega
      | QuadraticTo c p =>
          simp only [specExpand, List.length_cons]
          have := ih p e; omega
      | Close =>
          simp only [specExpand, List.length_cons]
          have := ih last e; omega
      | CubicTo c1 c2 p =>
          simp only [specExpand, List.length_cons, List.length_append,
            List.length_map]
          have h1 := (cubicDrain_length_bounds ⟨last, c1, c2, p⟩ e).1
          have := ih p e; omega
      | Arc p v af at' =>
          simp only [specExpand, List.length_cons, List.length_append,
            List.length_map, List.length_reverse]
          have h1 : 0 < (AQ (eventArc AF last p v af at')).length :=
            List.length_pos.mpr (harc _)
          have := ih p e; omega

/-- A fresh cubic segment iterator always emits at least once (the pending
stack starts with the two halves). -/
theorem new_next_some (c : CubicBezierSegment) (e : ℚ) :
    ∃ q it', (CubicToQuadraticSegmentIter.new c e).next = (some q, it') :=
  ⟨_, _, rfl⟩

/-! ## The claims -/

theorem kOf_zero_of_pos {e : ℚ} (he : 0 < e) : kOf 0 e = 0 := by
  unfold kOf
  apply List.countP_eq_zero.mpr
  intro d _
  have hq : qCheck 0 e d = true := by
    unfold qCheck
    simp only [Bool.and_eq_true, decide_eq_true_eq]
    refine ⟨he, ?_⟩
    have h1 : (0 : ℚ) < e ^ 2 := pow_pos he 2
    have h2 : (0 : ℚ) < 64 ^ d := by positivity
    have h3 : (0 : ℚ) < 36 * e ^ 2 * 64 ^ d := by positivity
    exact h3
  simp [hq]

/-- C1 (counterexample): the claim "a cubic with deviation vectors
`d0 = d1 = 0` and a positive error bound yields exactly one quadratic
segment" is false: for the collinear, evenly-spaced cubic
`(0,0) (1,0) (2,0) (3,0)` with error bound `1`, both deviation vectors are
zero yet the iterator yields exactly two quadratic segments (the
constructor pre-splits the cubic into two halves). -/
theorem c1_counterexample :
    delta_ctrl_0 ⟨⟨0,0⟩,⟨1,0⟩,⟨2,0⟩,⟨3,0⟩⟩ = (⟨0, 0⟩ : Point2D) ∧
    delta_ctrl_1 ⟨⟨0,0⟩,⟨1,0⟩,⟨2,0⟩,⟨3,0⟩⟩ = (⟨0, 0⟩ : Point2D) ∧
    (0 : ℚ) < 1 ∧
    (cubicDrain ⟨⟨0,0⟩,⟨1,0⟩,⟨2,0⟩,⟨3,0⟩⟩ 1).length = 2 := by
  have h0 : delta_ctrl_0 ⟨⟨0,0⟩,⟨1,0⟩,⟨2,0⟩,⟨3,0⟩⟩ = (⟨0, 0⟩ : Point2D) := by
    apply Point2D.ext' <;> norm_num [delta_ctrl_0]
  have h1 : delta_ctrl_1 ⟨⟨0,0⟩,⟨1,0⟩,⟨2,0⟩,⟨3,0⟩⟩ = (⟨0, 0⟩ : Point2D) := by
    apply Point2D.ext' <;> norm_num [delta_ctrl_1]
  refine ⟨h0, h1, by norm_num, ?_⟩
  rw [cubicDrain_length_eq_aCount, h0]
  have hz : (Point2D.lengthSq ⟨0, 0⟩) = 0 := by norm_num [Point2D.lengthSq]
  rw [hz, kOf_zero_of_pos (by norm_num)]
  decide

/-- C1 (amended): for every cubic whose deviation vectors `d0` and `d1`
are zero and every error bound `> 0`, `CubicToQuadraticSegmentIter` yields
exactly TWO quadratic segments before signalling exhaustion: the
constructor always pre-splits the cubic into two pending halves, and each
half (whose deviation also vanishes) passes the error test on its first
check. -/
theorem c1_amended_two_segments (c : CubicBezierSegment) (e : ℚ)
    (h0 : delta_ctrl_0 c = ⟨0, 0⟩) (h1 : delta_ctrl_1 c = ⟨0, 0⟩)
    (he : 0 < e) : (cubicDrain c e).length = 2 := by
  rw [cubicDrain_length_eq_aCount, h0]
  have hz : (Point2D.lengthSq ⟨0, 0⟩) = 0 := by norm_num [Point2D.lengthSq]
  rw [hz, kOf_zero_of_pos he]
  decide

/-- Witness for C1's amended theorem, at the collinear evenly-spaced cubic
`(0,0) (6,0) (12,0) (18,0)` and error bound `1`. -/
theorem c1_amended_two_segments_witness :
    delta_ctrl_0 ⟨⟨0,0⟩,⟨6,0⟩,⟨12,0⟩,⟨18,0⟩⟩ = (⟨0, 0⟩ : Point2D) ∧
    delta_ctrl_1 ⟨⟨0,0⟩,⟨6,0⟩,⟨12,0⟩,⟨18,0⟩⟩ = (⟨0, 0⟩ : Point2D) ∧
    (0 : ℚ) < 1 ∧
    (cubicDrain ⟨⟨0,0⟩,⟨6,0⟩,⟨12,0⟩,⟨18,0⟩⟩ 1).length = 2 := by
  have h0 : delta_ctrl_0 ⟨⟨0,0⟩,⟨6,0⟩,⟨12,0⟩,⟨18,0⟩⟩ = (⟨0, 0⟩ : Point2D) := by
    apply Point2D.ext' <;> norm_num [delta_ctrl_0]
  have h1 : delta_ctrl_1 ⟨⟨0,0⟩,⟨6,0⟩,⟨12,0⟩,⟨18,0⟩⟩ = (⟨0, 0⟩ : Point2D) := by
    apply Point2D.ext' <;> norm_num [delta_ctrl_1]
  exact ⟨h0, h1, by norm_num,
    c1_amended_two_segments _ _ h0 h1 (by norm_num)⟩

/-- C2: an emission of `CubicToQuadraticSegmentIter::next` from a state
whose pending stack pops `cubic` (over remainder `rest`) emits exactly the
approximation of THE sub-segment the subdivision loop settled on,
`(subdivide cubic rest iteration error_bound).1`, leaves exactly the
loop's stack and counter, and that settled sub-segment satisfies, at the
moment of emission, the control-polygon test
`max(|d0|, |d1|)/6 < error_bound` — or the shared counter has reached its
cap of 32.  Contrapositive: while the counter is still below the cap, an
unconverged sub-segment is never emitted. -/
theorem c2_emitted_converged_or_capped (it : CubicToQuadraticSegmentIter)
    (cubic : CubicBezierSegment) (rest : List CubicBezierSegment)
    (q : QuadraticBezierSegment) (it' : CubicToQuadraticSegmentIter)
    (hstack : it.cubic_curves = cubic :: rest)
    (h : it.next = (some q, it')) :
    q = approxQuad (subdivide cubic rest it.iteration it.error_bound).1 ∧
    it'.cubic_curves =
      (subdivide cubic rest it.iteration it.error_bound).2.1 ∧
    it'.iteration =
      (subdivide cubic rest it.iteration it.error_bound).2.2 ∧
    (maxErrorLt (subdivide cubic rest it.iteration it.error_bound).1
        it.error_bound = true ∨
      MAX_APPROXIMATION_ITERATIONS ≤ it'.iteration) := by
  simp only [CubicToQuadraticSegmentIter.next, hstack, Prod.mk.injEq,
    Option.some.injEq] at h
  obtain ⟨h1, h2⟩ := h
  have hcurves : it'.cubic_curves =
      (subdivide cubic rest it.iteration it.error_bound).2.1 := by
    rw [← h2]
  have hiter : it'.iteration =
      (subdivide cubic rest it.iteration it.error_bound).2.2 := by
    rw [← h2]
  refine ⟨h1.symm, hcurves, hiter, ?_⟩
  rcases subdivideGo_post (MAX_APPROXIMATION_ITERATIONS - it.iteration)
    cubic rest it.iteration it.error_bound with hp | hp
  · left; exact hp
  · right
    rw [hiter]
    simp only [subdivide]
    omega

/-- Witness for C2 at a concrete iterator state whose counter has reached
the cap (so the loop returns the popped sub-segment unchanged). -/
theorem c2_emitted_converged_or_capped_witness :
    (CubicToQuadraticSegmentIter.mk [⟨⟨0,0⟩,⟨0,1⟩,⟨1,1⟩,⟨1,0⟩⟩] 1 32).cubic_curves =
      [⟨⟨0,0⟩,⟨0,1⟩,⟨1,1⟩,⟨1,0⟩⟩] ∧
    (CubicToQuadraticSegmentIter.mk [⟨⟨0,0⟩,⟨0,1⟩,⟨1,1⟩,⟨1,0⟩⟩] 1 32).next =
      (some (approxQuad ⟨⟨0,0⟩,⟨0,1⟩,⟨1,1⟩,⟨1,0⟩⟩),
        CubicToQuadraticSegmentIter.mk [] 1 32) ∧
    (approxQuad ⟨⟨0,0⟩,⟨0,1⟩,⟨1,1⟩,⟨1,0⟩⟩ =
      approxQuad (subdivide ⟨⟨0,0⟩,⟨0,1⟩,⟨1,1⟩,⟨1,0⟩⟩ [] 32 1).1 ∧
    (CubicToQuadraticSegmentIter.mk [] 1 32).cubic_curves =
      (subdivide ⟨⟨0,0⟩,⟨0,1⟩,⟨1,1⟩,⟨1,0⟩⟩ [] 32 1).2.1 ∧
    (CubicToQuadraticSegmentIter.mk [] 1 32).iteration =
      (subdivide ⟨⟨0,0⟩,⟨0,1⟩,⟨1,1⟩,⟨1,0⟩⟩ [] 32 1).2.2 ∧
    (maxErrorLt (subdivide ⟨⟨0,0⟩,⟨0,1⟩,⟨1,1⟩,⟨1,0⟩⟩ [] 32 1).1 1 = true ∨
      MAX_APPROXIMATION_ITERATIONS ≤
        (CubicToQuadraticSegmentIter.mk [] 1 32).iteration)) :=
  ⟨rfl, rfl, c2_emitted_converged_or_capped
    (CubicToQuadraticSegmentIter.mk [⟨⟨0,0⟩,⟨0,1⟩,⟨1,1⟩,⟨1,0⟩⟩] 1 32)
    ⟨⟨0,0⟩,⟨0,1⟩,⟨1,1⟩,⟨1,0⟩⟩ []
    (approxQuad ⟨⟨0,0⟩,⟨0,1⟩,⟨1,1⟩,⟨1,0⟩⟩)
    (CubicToQuadraticSegmentIter.mk [] 1 32) rfl rfl⟩

/-- C3: for every cubic and every error bound `> 0`, the sequence of
emitted quadratics is nonempty, C0-continuous, and spans the cubic's
endpoints: the first segment starts at the cubic's `from`, each segment
starts where its predecessor ended, and the last segment ends at the
cubic's `to`. -/
theorem c3_continuity (c : CubicBezierSegment) (e : ℚ) (he : 0 < e) :
    cubicDrain c e ≠ [] ∧
      (∀ s, (cubicDrain c e).head? = some s → s.«from» = c.«from») ∧
      (∀ s, (cubicDrain c e).getLast? = some s → s.«to» = c.«to») ∧
      (∀ i (h1 : i + 1 < (cubicDrain c e).length),
        ((cubicDrain c e).get ⟨i, by omega⟩).«to» =
          ((cubicDrain c e).get ⟨i + 1, h1⟩).«from») := by
  have hch := cubicDrain_chain c e
  have hlen := (cubicDrain_length_bounds c e).1
  refine ⟨?_, hch.head_from, hch.getLast_to, hch.adjacent⟩
  intro hnil
  rw [hnil] at hlen
  simp at hlen

/-- Witness for C3 at the cubic `(0,0) (0,1) (1,1) (1,0)` and error bound
`1/100`. -/
theorem c3_continuity_witness :
    (0 : ℚ) < 1/100 ∧
    (cubicDrain ⟨⟨0,0⟩,⟨0,1⟩,⟨1,1⟩,⟨1,0⟩⟩ (1/100) ≠ [] ∧
      (∀ s, (cubicDrain ⟨⟨0,0⟩,⟨0,1⟩,⟨1,1⟩,⟨1,0⟩⟩ (1/100)).head? = some s →
        s.«from» = (⟨0,0⟩ : Point2D)) ∧
      (∀ s, (cubicDrain ⟨⟨0,0⟩,⟨0,1⟩,⟨1,1⟩,⟨1,0⟩⟩ (1/100)).getLast? = some s →
        s.«to» = (⟨1,0⟩ : Point2D)) ∧
      (∀ i (h1 : i + 1 <
          (cubicDrain ⟨⟨0,0⟩,⟨0,1⟩,⟨1,1⟩,⟨1,0⟩⟩ (1/100)).length),
        ((cubicDrain ⟨⟨0,0⟩,⟨0,1⟩,⟨1,1⟩,⟨1,0⟩⟩ (1/100)).get
            ⟨i, by omega⟩).«to» =
          ((cubicDrain ⟨⟨0,0⟩,⟨0,1⟩,⟨1,1⟩,⟨1,0⟩⟩ (1/100)).get
            ⟨i + 1, h1⟩).«from»)) :=
  ⟨by norm_num, c3_continuity ⟨⟨0,0⟩,⟨0,1⟩,⟨1,1⟩,⟨1,0⟩⟩ (1/100) (by norm_num)⟩

/-- C6: for every cubic and every error bound `> 0` the iterator yields a
finite sequence (a list, by construction) of at most `2^32` quadratic
segments. -/
theorem c6_termination_bound (c : CubicBezierSegment) (e : ℚ)
    (he : 0 < e) :
    (cubicDrain c e).length ≤ 2 ^ MAX_APPROXIMATION_ITERATIONS := by
  have h1 := (cubicDrain_length_bounds c e).2
  have h2 : MAX_APPROXIMATION_ITERATIONS + 2 ≤
      2 ^ MAX_APPROXIMATION_ITERATIONS := by
    norm_num [MAX_APPROXIMATION_ITERATIONS]
  omega

/-- Witness for C6 at a concrete cubic and error bound `1`. -/
theorem c6_termination_bound_witness :
    (0 : ℚ) < 1 ∧
    (cubicDrain ⟨⟨0,0⟩,⟨0,1⟩,⟨1,1⟩,⟨1,0⟩⟩ 1).length ≤
      2 ^ MAX_APPROXIMATION_ITERATIONS :=
  ⟨by norm_num, c6_termination_bound ⟨⟨0,0⟩,⟨0,1⟩,⟨1,1⟩,⟨1,0⟩⟩ 1 (by norm_num)⟩

/-- C7: for the same cubic, a larger error bound never yields more
quadratic segments: if `0 < e1 ≤ e2` then the count at `e2` is at most the
count at `e1`. -/
theorem c7_monotonicity (c : CubicBezierSegment) (e1 e2 : ℚ)
    (h1 : 0 < e1) (h2 : 0 < e2) (h12 : e1 ≤ e2) :
    (cubicDrain c e2).length ≤ (cubicDrain c e1).length :=
  cubicDrain_length_antitone c h1 h12

/-- Witness for C7 at a concrete cubic with bounds `1/100 ≤ 1`. -/
theorem c7_monotonicity_witness :
    (0 : ℚ) < 1/100 ∧ (0 : ℚ) < 1 ∧ (1/100 : ℚ) ≤ 1 ∧
    (cubicDrain ⟨⟨0,0⟩,⟨0,1⟩,⟨1,1⟩,⟨1,0⟩⟩ 1).length ≤
      (cubicDrain ⟨⟨0,0⟩,⟨0,1⟩,⟨1,1⟩,⟨1,0⟩⟩ (1/100)).length :=
  ⟨by norm_num, by norm_num, by norm_num,
    c7_monotonicity ⟨⟨0,0⟩,⟨0,1⟩,⟨1,1⟩,⟨1,0⟩⟩ (1/100) 1 (by norm_num)
      (by norm_num) (by norm_num)⟩

/-- C8: for every arc, the sequence of quadratics yielded by
`ArcToQuadraticSegmentIter` (pulled to exhaustion) is exactly the reverse
of the ordered sequence the arc-decomposition collaborator generates for
that arc. -/
theorem c8_arc_reverse_order (AQ : Arc → List QuadraticBezierSegment)
    (arc : Arc) :
    (ArcToQuadraticSegmentIter.new AQ arc).drain = (AQ arc).reverse :=
  arc_drain_eq_reverse AQ arc

/-- C9: for every cubic and every error bound (any sign), the iterator
yields at least 2 and at most `MAX_APPROXIMATION_ITERATIONS + 2 = 34`
quadratic segments: the constructor pre-splits into two pending halves and
each of the at most 32 loop iterations pushes at most one further pending
sub-segment. -/
theorem c9_segment_count_bounds (c : CubicBezierSegment) (e : ℚ) :
    2 ≤ (cubicDrain c e).length ∧
      (cubicDrain c e).length ≤ MAX_APPROXIMATION_ITERATIONS + 2 :=
  cubicDrain_length_bounds c e

/-- C4: for every finite input stream and every error bound — assuming the
arc-decomposition collaborator returns at least one quadratic per arc, as
the spec's replacement guarantee presumes — the transformer's full output
equals the spec characterization `specExpand` (every cubic-draw and
arc-draw replaced in place by the corresponding approximator's run of
quadratic-draw events, all other events passed through verbatim and in
order), contains no cubic-draw or arc-draw event, and is at least as long
as the input. -/
theorem c4_output_shape (AQ : Arc → List QuadraticBezierSegment)
    (AF : Point2D → ℚ) (inner : List PathEvent) (e : ℚ)
    (harc : ∀ a, AQ a ≠ []) :
    tdrain AQ AF (CubicToQuadraticTransformer.new inner e) =
        specExpand AQ AF e ⟨0, 0⟩ inner ∧
      (∀ ev ∈ tdrain AQ AF (CubicToQuadraticTransformer.new inner e),
        isCubicOrArcDraw ev = false) ∧
      inner.length ≤
        (tdrain AQ AF (CubicToQuadraticTransformer.new inner e)).length := by
  have hnew : CubicToQuadraticTransformer.new inner e =
      ⟨inner, none, ⟨0, 0⟩, e⟩ := rfl
  rw [hnew, tdrain_eq_specExpand AQ AF inner ⟨0, 0⟩ e]
  exact ⟨rfl, fun ev h => specExpand_no_cubic_arc AQ AF inner ⟨0, 0⟩ e ev h,
    specExpand_length_ge AQ AF harc inner ⟨0, 0⟩ e⟩

/-- Witness for C4 at a one-event stream and a one-segment collaborator. -/
theorem c4_output_shape_witness :
    (∀ a, (fun _ : Arc =>
      [(⟨⟨0,0⟩,⟨0,0⟩,⟨0,0⟩⟩ : QuadraticBezierSegment)]) a ≠ []) ∧
    (tdrain (fun _ => [⟨⟨0,0⟩,⟨0,0⟩,⟨0,0⟩⟩]) (fun _ => 0)
        (CubicToQuadraticTransformer.new [PathEvent.Close] 1) =
        specExpand (fun _ => [⟨⟨0,0⟩,⟨0,0⟩,⟨0,0⟩⟩]) (fun _ => 0) 1 ⟨0, 0⟩
          [PathEvent.Close] ∧
      (∀ ev ∈ tdrain (fun _ => [⟨⟨0,0⟩,⟨0,0⟩,⟨0,0⟩⟩]) (fun _ => 0)
          (CubicToQuadraticTransformer.new [PathEvent.Close] 1),
        isCubicOrArcDraw ev = false) ∧
      ([PathEvent.Close] : List PathEvent).length ≤
        (tdrain (fun _ => [⟨⟨0,0⟩,⟨0,0⟩,⟨0,0⟩⟩]) (fun _ => 0)
          (CubicToQuadraticTransformer.new [PathEvent.Close] 1)).length) :=
  ⟨fun a => List.cons_ne_nil _ _,
   c4_output_shape (fun _ => [⟨⟨0,0⟩,⟨0,0⟩,⟨0,0⟩⟩]) (fun _ => 0)
     [PathEvent.Close] 1 (fun a => List.cons_ne_nil _ _)⟩

/-- C5 (counterexample): the claim that `next`, when emitting a quadratic
from an actively draining sub-sequence, updates `last_point` to that
segment's endpoint before returning, is false: in this state the emitted
quadratic ends at `(1,1)` but `last_point` remains `(5,5)` — the drain
branch of `next` (source lines 123-127) never writes `last_point`. -/
theorem c5_counterexample :
    CubicToQuadraticTransformer.next (fun _ => []) (fun _ => 0)
        ⟨[], some (SegIter.arc ⟨[⟨⟨0,0⟩,⟨0,0⟩,⟨1,1⟩⟩]⟩), ⟨5,5⟩, 1⟩ =
      (some (PathEvent.QuadraticTo ⟨0,0⟩ ⟨1,1⟩),
        ⟨[], some (SegIter.arc ⟨[]⟩), ⟨5,5⟩, 1⟩) ∧
    (⟨5, 5⟩ : Point2D) ≠ (⟨1, 1⟩ : Point2D) :=
  ⟨rfl, by decide⟩

/-- C5 (amended): whenever `next` emits a quadratic from an actively
draining sub-sequence, it emits a quadratic-draw event with that segment's
control point and endpoint and returns with `last_point` UNCHANGED —
`last_point` was already set to the original curve event's endpoint when
that event was consumed, and the drain branch does not touch it. -/
theorem c5_amended_last_point_unchanged
    (AQ : Arc → List QuadraticBezierSegment) (AF : Point2D → ℚ)
    (inner : List PathEvent) (si : SegIter) (last : Point2D) (e : ℚ)
    (q : QuadraticBezierSegment) (si' : SegIter)
    (hn : si.next = (some q, si')) :
    CubicToQuadraticTransformer.next AQ AF ⟨inner, some si, last, e⟩ =
      (some (PathEvent.QuadraticTo q.ctrl q.«to»),
        ⟨inner, some si', last, e⟩) :=
  next_drain_emit AQ AF inner si last e q si' hn

/-- Witness for C5's amended theorem at a concrete draining state. -/
theorem c5_amended_last_point_unchanged_witness :
    (SegIter.arc ⟨[(⟨⟨0,0⟩,⟨0,0⟩,⟨2,3⟩⟩ : QuadraticBezierSegment)]⟩).next =
      (some ⟨⟨0,0⟩,⟨0,0⟩,⟨2,3⟩⟩, SegIter.arc ⟨[]⟩) ∧
    CubicToQuadraticTransformer.next (fun _ => []) (fun _ => 0)
        ⟨[], some (SegIter.arc ⟨[⟨⟨0,0⟩,⟨0,0⟩,⟨2,3⟩⟩]⟩), ⟨7,7⟩, 1⟩ =
      (some (PathEvent.QuadraticTo ⟨0,0⟩ ⟨2,3⟩),
        ⟨[], some (SegIter.arc ⟨[]⟩), ⟨7,7⟩, 1⟩) :=
  ⟨rfl, c5_amended_last_point_unchanged (fun _ => []) (fun _ => 0) []
    (SegIter.arc ⟨[⟨⟨0,0⟩,⟨0,0⟩,⟨2,3⟩⟩]⟩) ⟨7,7⟩ 1 ⟨⟨0,0⟩,⟨0,0⟩,⟨2,3⟩⟩
    (SegIter.arc ⟨[]⟩) rfl⟩

/-- C10: a freshly constructed transformer tracks `last_point = (0,0)`;
consequently a cubic-draw event arriving first is approximated as the
cubic whose start point is the origin, and an arc-draw event arriving
first is reconstructed with
`start_angle = angle_from_x_axis(to - (0,0)) - angle_from`. -/
theorem c10_initial_point_origin (AQ : Arc → List QuadraticBezierSegment)
    (AF : Point2D → ℚ) (inner rest : List PathEvent) (c1 c2 p v : Point2D)
    (af at' e : ℚ) :
    (CubicToQuadraticTransformer.new inner e).last_point = ⟨0, 0⟩ ∧
    (CubicToQuadraticTransformer.next AQ AF
        (CubicToQuadraticTransformer.new
          (PathEvent.CubicTo c1 c2 p :: rest) e)).1 =
      ((CubicToQuadraticSegmentIter.new ⟨⟨0, 0⟩, c1, c2, p⟩ e).next.1).map
        (fun q => PathEvent.QuadraticTo q.ctrl q.«to») ∧
    (CubicToQuadraticTransformer.next AQ AF
        (CubicToQuadraticTransformer.new [PathEvent.Arc p v af at'] e)).1 =
      ((AQ (eventArc AF ⟨0, 0⟩ p v af at')).getLast?).map
        (fun q => PathEvent.QuadraticTo q.ctrl q.«to») := by
  refine ⟨rfl, ?_, ?_⟩
  · have hnew : CubicToQuadraticTransformer.new
        (PathEvent.CubicTo c1 c2 p :: rest) e =
        ⟨PathEvent.CubicTo c1 c2 p :: rest, none, ⟨0, 0⟩, e⟩ := rfl
    rw [hnew, next_cubic_event]
    obtain ⟨q, it', hn⟩ := new_next_some ⟨⟨0, 0⟩, c1, c2, p⟩ e
    have hsn : (SegIter.cubic (CubicToQuadraticSegmentIter.new
        ⟨⟨0, 0⟩, c1, c2, p⟩ e)).next = (some q, SegIter.cubic it') := by
      simp [SegIter.next, hn]
    rw [next_drain_emit AQ AF rest _ p e q (SegIter.cubic it') hsn, hn]
    rfl
  · have hnew : CubicToQuadraticTransformer.new [PathEvent.Arc p v af at'] e =
        ⟨[PathEvent.Arc p v af at'], none, ⟨0, 0⟩, e⟩ := rfl
    rw [hnew, next_arc_event]
    cases hL : (AQ (eventArc AF ⟨0, 0⟩ p v af at')).getLast? with
    | none =>
        have hsn : (SegIter.arc (ArcToQuadraticSegmentIter.new AQ
            (eventArc AF ⟨0, 0⟩ p v af at'))).next =
            (none, SegIter.arc (ArcToQuadraticSegmentIter.new AQ
              (eventArc AF ⟨0, 0⟩ p v af at'))) := by
          simp [SegIter.next, ArcToQuadraticSegmentIter.next,
            ArcToQuadraticSegmentIter.new, hL]
        rw [next_exhausted AQ AF [] _ p e _ hsn]
        rfl
    | some q =>
        have hsn : (SegIter.arc (ArcToQuadraticSegmentIter.new AQ
            (eventArc AF ⟨0, 0⟩ p v af at'))).next =
            (some q, SegIter.arc
              ⟨(AQ (eventArc AF ⟨0, 0⟩ p v af at')).dropLast⟩) := by
          simp [SegIter.next, ArcToQuadraticSegmentIter.next,
            ArcToQuadraticSegmentIter.new, hL]
        rw [next_drain_emit AQ AF [] _ p e q _ hsn]
        rfl

end CubicToQuadratic
